import Mathlib

/-!
Verification development for the pickleball used-paddle offer API
(`server.js` and the two retry-enabled source variants `part_000`/`part_001`).

Strings of the JavaScript runtime are modelled as lists of UTF-16 code units
(`List Nat`); for the ASCII data handled by this program a code unit is the
character code.  JavaScript numbers are rationals: comparisons, minima and
maxima of doubles are exact, and where the IEEE-754 rounding of binary64
arithmetic is observable (the offer computation), it is modelled exactly by
`rnd64`, the round-to-nearest-ties-to-even function on `ℚ`;
`Number.EPSILON` is the exact rational `2⁻⁵²`.  The HTML fetch and cheerio
extraction are abstracted as an oracle outcome delivering the extracted raw
listings; every step of the pipeline from that point on is embedded from the
source.
-/

namespace POA

/-- A JavaScript string: its list of UTF-16 code units. -/
abbrev JStr := List Nat

/-- Encode a Lean string literal as a JavaScript string (BMP code points
are single UTF-16 code units; all literals used here are ASCII). -/
def enc (s : String) : JStr := s.toList.map Char.toNat

/-- The JavaScript `\s` whitespace class (the code points matched by the
`/\s/` regular-expression class used in `replace(/\s+/g, " ")`). -/
def isWs (n : Nat) : Bool :=
  n = 32 || n = 9 || n = 10 || n = 11 || n = 12 || n = 13 || n = 160 ||
  n = 5760 || (8192 ≤ n && n ≤ 8202) || n = 8232 || n = 8233 || n = 8239 ||
  n = 8287 || n = 12288 || n = 65279

/-- ASCII digit test, modelling the regular-expression class `[\d]`. -/
def isDigit (n : Nat) : Bool := 48 ≤ n && n ≤ 57

/-- `String.prototype.toLowerCase` on one code unit (the source only ever
lowercases ASCII letters; the mapping is the identity off `A`–`Z`). -/
def toLowerCode (n : Nat) : Nat := if 65 ≤ n && n ≤ 90 then n + 32 else n

/-- `replace(/\s+/g, " ")`: every maximal whitespace run becomes one space. -/
def collapseWs : JStr → JStr
  | [] => []
  | c :: rest =>
    match rest with
    | [] => if isWs c then [32] else [c]
    | c2 :: rest2 =>
      if isWs c && isWs c2 then collapseWs (c2 :: rest2)
      else (if isWs c then 32 else c) :: collapseWs (c2 :: rest2)

/-- Leading-whitespace removal (half of `String.prototype.trim`). -/
def trimLeft (l : JStr) : JStr := l.dropWhile isWs

/-- Trailing-whitespace removal (the other half of `trim`). -/
def trimRight : JStr → JStr
  | [] => []
  | c :: cs =>
    let r := trimRight cs
    if r.isEmpty then (if isWs c then [] else [c]) else c :: r

/-- `normalize` from the source:
`str.toLowerCase().replace(/\s+/g, " ").trim()`. -/
def normalize (l : JStr) : JStr :=
  trimRight (trimLeft (collapseWs (l.map toLowerCode)))

/-- Does the second string occur as a prefix of the first? -/
def startsWithL : JStr → JStr → Bool
  | _, [] => true
  | [], _ :: _ => false
  | a :: as_, b :: bs => (a = b) && startsWithL as_ bs

/-- `s.includes(t)` — `t` occurs contiguously inside `s`. -/
def includesL : JStr → JStr → Bool
  | [], t => startsWithL [] t
  | a :: as_, t => startsWithL (a :: as_) t || includesL as_ t

/-- `q.split(" ")`: split at every single space code unit. -/
def splitSp : JStr → List JStr
  | [] => [[]]
  | c :: cs =>
    if c = 32 then [] :: splitSp cs
    else
      match splitSp cs with
      | [] => [[c]]
      | t :: ts => (c :: t) :: ts

/-- `q.split(" ").filter(Boolean)` — the non-empty tokens. -/
def tokensOf (q : JStr) : List JStr := (splitSp q).filter (fun t => !t.isEmpty)

/-! ### Price parsing (`priceParse`) -/

/-- One attempt of the regular expression `[\d]+\.\d{2}` anchored at the head
of the list: a maximal digit run, a dot, then two digits.  (The greedy `\d+`
cannot backtrack successfully: shortening the run puts a digit where the dot
must match.)  Returns the matched text and the remainder after it. -/
def matchAt (l : JStr) : Option (JStr × JStr) :=
  match l.takeWhile isDigit, l.dropWhile isDigit with
  | [], _ => none
  | d :: ds, 46 :: d1 :: d2 :: rest =>
    if isDigit d1 && isDigit d2 then some ((d :: ds) ++ [46, d1, d2], rest)
    else none
  | _ :: _, _ => none

/-- Global scan of `[\d]+\.\d{2}`: try each start position left to right and
continue after every match, fuelled by the list length. -/
def scanGo : Nat → JStr → List JStr
  | 0, _ => []
  | _ + 1, [] => []
  | fuel + 1, c :: cs =>
    match matchAt (c :: cs) with
    | some (m, rest) => m :: scanGo fuel rest
    | none => scanGo fuel cs

/-- `priceText.match(/[\d]+\.\d{2}/g)`, as the list of matched substrings. -/
def scanMatches (l : JStr) : List JStr := scanGo l.length l

/-- Decimal value of a digit string. -/
def digitsToNat (l : JStr) : Nat := l.foldl (fun a c => a * 10 + (c - 48)) 0

/-- Value in cents of a matched `digits.dd` substring. -/
def matchCents (m : JStr) : Nat :=
  match m.dropWhile isDigit with
  | 46 :: d1 :: d2 :: _ =>
    digitsToNat (m.takeWhile isDigit) * 100 + (d1 - 48) * 10 + (d2 - 48)
  | _ => 0

/-- `parseFloat` on a matched `digits.dd` substring, as an exact rational. -/
def matchValue (m : JStr) : ℚ := (matchCents m : ℚ) / 100

/-- The `{ lo, hi, mid }` record produced by `priceParse`. -/
structure ParsedPrice where
  lo : ℚ
  hi : ℚ
  mid : ℚ
deriving DecidableEq, Repr

/-- `priceParse`: extract every `[\d]+\.\d{2}` match, return `null` when there
are none, otherwise the min, the max and their average. -/
def priceParse (t : JStr) : Option ParsedPrice :=
  match (scanMatches t).map matchValue with
  | [] => none
  | v :: vs =>
    let lo := vs.foldl min v
    let hi := vs.foldl max v
    some ⟨lo, hi, (lo + hi) / 2⟩

/-- Window test: do the first four code units spell `digit . digit digit`? -/
def window0 : JStr → Bool
  | a :: b :: c :: d :: _ => isDigit a && (b = 46) && isDigit c && isDigit d
  | _ => false

/-- Specification-side predicate: the text contains a substring of the form
one-or-more digits, a decimal point, then two digits (equivalently it has a
`digit . digit digit` window somewhere). -/
def hasPattern : JStr → Bool
  | [] => false
  | c :: cs => window0 (c :: cs) || hasPattern cs

/-! ### Listings and deduplication -/

/-- A raw scraped listing: `{ name, price }` as in the source. -/
structure Listing where
  name : JStr
  price : JStr
deriving DecidableEq, Repr

/-- Normalized-name key of a listing. -/
def lkey (it : Listing) : JStr := normalize it.name

/-- Insertion-ordered string-keyed map, modelling a JavaScript `Map`. -/
abbrev KV := List (JStr × Listing)

/-- `map.get(k)` (also serving as `map.has(k)`). -/
def mapGet : KV → JStr → Option Listing
  | [], _ => none
  | (k', v) :: rest, k => if k' = k then some v else mapGet rest k

/-- `map.set(k, v)`: overwrite in place (key keeps its position) or append. -/
def mapSet : KV → JStr → Listing → KV
  | [], k, v => [(k, v)]
  | (k', v') :: rest, k, v =>
    if k' = k then (k', v) :: rest else (k', v') :: mapSet rest k v

/-- One iteration of the dedup loop:
`if (!byName.has(key) || it.price.length > byName.get(key).price.length)
   byName.set(key, it)`. -/
def dedupStep (m : KV) (it : Listing) : KV :=
  match mapGet m (lkey it) with
  | none => mapSet m (lkey it) it
  | some prev =>
    if prev.price.length < it.price.length then mapSet m (lkey it) it else m

/-- The dedup stage of `scrapeUsedPaddles`: fold the raw items through the
`Map`, then `Array.from(byName.values())` (values in key-insertion order). -/
def dedupByName (items : List Listing) : List Listing :=
  (items.foldl dedupStep []).map Prod.snd

/-- Specification-side helper: first-seen-order deduplication of a key list,
given the keys already seen. -/
def firstSeen (seen : List JStr) : List JStr → List JStr
  | [] => []
  | k :: ks => if k ∈ seen then firstSeen seen ks else k :: firstSeen (k :: seen) ks

/-! ### Cache and scraping -/

/-- The module-level `CACHE` object.  `data` is `null` (`none`) until a scrape
succeeds; note that a stored *empty* array is still JavaScript-truthy. -/
structure CacheState where
  data : Option (List Listing)
  fetchedAt : Int
  ttlMs : Int
deriving DecidableEq, Repr

/-- Outcome of the abstracted fetch-and-extract step: either the list of raw
items extracted from the page, or a failure (network error, non-ok status). -/
inductive FetchOutcome where
  | success (items : List Listing)
  | failure
deriving DecidableEq, Repr

/-- What a `scrapeUsedPaddles()` call hands back: the returned catalog, or a
rethrown error. -/
inductive ScrapeResult where
  | ok (catalog : List Listing)
  | thrown
deriving DecidableEq, Repr

/-- Result of one `scrapeUsedPaddles()` call: the returned-or-thrown catalog,
the cache afterwards, and whether a refresh was attempted. -/
structure ScrapeOut where
  result : ScrapeResult
  cache : CacheState
  attempted : Bool
deriving DecidableEq, Repr

/-- `scrapeUsedPaddles` of `server.js`: serve the cache while fresh, otherwise
refresh; a refresh failure is logged and rethrown (no stale fallback). -/
def ServerVariant.scrapeUsedPaddles (c : CacheState) (now : Int)
    (f : FetchOutcome) : ScrapeOut :=
  match c.data with
  | some d =>
    if now - c.fetchedAt < c.ttlMs then ⟨.ok d, c, false⟩
    else
      match f with
      | .success items =>
        let data := dedupByName items
        ⟨.ok data, ⟨some data, now, c.ttlMs⟩, true⟩
      | .failure => ⟨.thrown, c, true⟩
  | none =>
    match f with
    | .success items =>
      let data := dedupByName items
      ⟨.ok data, ⟨some data, now, c.ttlMs⟩, true⟩
    | .failure => ⟨.thrown, c, true⟩

/-- `scrapeUsedPaddles` of `part_000`/`part_001`: same as `server.js` except
that a refresh failure returns any previously stored catalog (`if
(CACHE.data)` — truthy even for an empty array) and only otherwise rethrows. -/
def RetryVariant.scrapeUsedPaddles (c : CacheState) (now : Int)
    (f : FetchOutcome) : ScrapeOut :=
  match c.data with
  | some d =>
    if now - c.fetchedAt < c.ttlMs then ⟨.ok d, c, false⟩
    else
      match f with
      | .success items =>
        let data := dedupByName items
        ⟨.ok data, ⟨some data, now, c.ttlMs⟩, true⟩
      | .failure => ⟨.ok d, c, true⟩
  | none =>
    match f with
    | .success items =>
      let data := dedupByName items
      ⟨.ok data, ⟨some data, now, c.ttlMs⟩, true⟩
    | .failure => ⟨.thrown, c, true⟩

/-! ### Matching -/

/-- Containment test of the substring phase:
`n.includes(q) || q.includes(n)` for `n = normalize(item.name)`. -/
def contQ (q : JStr) (it : Listing) : Bool :=
  includesL (normalize it.name) q || includesL q (normalize it.name)

/-- Overlap score of the substring phase: `Math.min(n.length, q.length)`. -/
def ovl (q : JStr) (it : Listing) : Nat :=
  min (normalize it.name).length q.length

/-- The `{...item, score}` record of `server.js`'s substring phase. -/
structure Scored where
  item : Listing
  score : Nat
deriving DecidableEq, Repr

/-- One iteration of `server.js`'s substring loop:
`if (!candidate || score > candidate.score) candidate = {...item, score}`. -/
def substrStep (q : JStr) (cand : Option Scored) (item : Listing) :
    Option Scored :=
  if contQ q item then
    match cand with
    | none => some ⟨item, ovl q item⟩
    | some c => if c.score < ovl q item then some ⟨item, ovl q item⟩ else some c
  else cand

/-- The `{...item, hits}` record of the token-overlap fallback. -/
structure Hit where
  item : Listing
  hits : Nat
deriving DecidableEq, Repr

/-- Token hit count: `qTokens.filter(t => n.includes(t)).length`. -/
def hitCount (qTokens : List JStr) (item : Listing) : Nat :=
  (qTokens.filter (fun t => includesL (normalize item.name) t)).length

/-- One iteration of `server.js`'s token-overlap loop (ties broken in favour
of the longer raw name). -/
def tokenStepS (qTokens : List JStr) (alt : Option Hit) (item : Listing) :
    Option Hit :=
  let hits := hitCount qTokens item
  match alt with
  | none => if 0 < hits then some ⟨item, hits⟩ else none
  | some a =>
    if 0 < hits ∧ (a.hits < hits ∨
        (hits = a.hits ∧ a.item.name.length < item.name.length)) then
      some ⟨item, hits⟩
    else some a

/-- `bestMatch` of `server.js`: empty normalized query → no match; substring
phase keeping the highest-overlap candidate; token-overlap fallback. -/
def ServerVariant.bestMatch (model : JStr) (dataset : List Listing) :
    Option Listing :=
  let q := normalize model
  if q.isEmpty then none
  else
    match dataset.foldl (substrStep q) none with
    | some c => some c.item
    | none => (dataset.foldl (tokenStepS (tokensOf q)) none).map Hit.item

/-- The `ALIASES` table of `part_000`/`part_001`, in object-literal order. -/
def ALIASES : List (JStr × JStr) :=
  [(enc "peresus pro 4", enc "peresus pro iv"),
   (enc "peresus pro iv", enc "peresus pro iv"),
   (enc "ben johns perseus", enc "peresus pro iv"),
   (enc "joola perseus", enc "peresus pro iv"),
   (enc "perseus pro", enc "peresus pro"),
   (enc "bantam exps", enc "bantam exps"),
   (enc "bantam xl", enc "bantam xl"),
   (enc "onyx pro", enc "onyx")]

/-- The alias rewrite loop: the first table key contained in the query wins
and scanning stops (`break`); otherwise the query is unchanged. -/
def aliasRewrite (q : JStr) : JStr :=
  match ALIASES.find? (fun p => includesL q p.1) with
  | some p => p.2
  | none => q

/-- Substring phase of `part_000`/`part_001`: return the *first* containment
match in catalog order. -/
def firstContainment (nq : JStr) : List Listing → Option Listing
  | [] => none
  | item :: rest =>
    if includesL (normalize item.name) nq || includesL nq (normalize item.name)
    then some item
    else firstContainment nq rest

/-- One iteration of the retry variants' token-overlap loop (no name-length
tie-break). -/
def tokenStepR (qTokens : List JStr) (alt : Option Hit) (item : Listing) :
    Option Hit :=
  let hits := hitCount qTokens item
  match alt with
  | none => if 0 < hits then some ⟨item, hits⟩ else none
  | some a => if 0 < hits ∧ a.hits < hits then some ⟨item, hits⟩ else some a

/-- `bestMatch` of `part_000`/`part_001`: alias rewrite, then first
containment match, then token-overlap fallback. -/
def RetryVariant.bestMatch (model : JStr) (dataset : List Listing) :
    Option Listing :=
  let q := normalize model
  if q.isEmpty then none
  else
    let nq := aliasRewrite q
    match firstContainment nq dataset with
    | some item => some item
    | none => (dataset.foldl (tokenStepR (tokensOf nq)) none).map Hit.item

/-! ### `fetchWithRetry` (`part_000`/`part_001`) -/

/-- What one `fetch` attempt yields: an HTTP response with a status, or a
network-level exception. -/
inductive AttemptOutcome where
  | response (status : Nat)
  | netError
deriving DecidableEq, Repr

/-- How a `fetchWithRetry` call ends: a returned ok response, a returned
error response (status 406/≥500 on the last attempt), or a raised error. -/
inductive FetchResult where
  | success (status : Nat)
  | errorResponse (status : Nat)
  | raised
deriving DecidableEq, Repr

/-- `res.ok`: status in the inclusive range 200–299. -/
def resOk (s : Nat) : Bool := 200 ≤ s && s ≤ 299

/-- Trace of a `fetchWithRetry` run: final result, number of attempts
performed, and the backoff waits (ms) taken between attempts. -/
structure RetryRun where
  result : FetchResult
  attempts : Nat
  backoffs : List Nat
deriving DecidableEq, Repr

/-- The attempt loop of `fetchWithRetry`, with `env i` the outcome of the
`fetch` on attempt `i` and `fuel` the remaining iterations (`retries - i`).
A status of 406 or ≥500 is returned as-is on the last attempt and otherwise
retried after a `3000 * (i + 1)` ms wait; any other non-ok status throws
`HTTP <status>` — *inside* the `try`, so the loop's own `catch` treats it
exactly like a network error: rethrow on the last attempt, otherwise back
off and retry. -/
def fetchRetryGo (env : Nat → AttemptOutcome) : Nat → Nat → RetryRun
  | _, 0 => ⟨.raised, 0, []⟩
  | i, fuel + 1 =>
    match env i with
    | .response s =>
      if s = 406 || 500 ≤ s then
        if fuel = 0 then ⟨.errorResponse s, 1, []⟩
        else
          let r := fetchRetryGo env (i + 1) fuel
          ⟨r.result, r.attempts + 1, 3000 * (i + 1) :: r.backoffs⟩
      else if !resOk s then
        if fuel = 0 then ⟨.raised, 1, []⟩
        else
          let r := fetchRetryGo env (i + 1) fuel
          ⟨r.result, r.attempts + 1, 3000 * (i + 1) :: r.backoffs⟩
      else ⟨.success s, 1, []⟩
    | .netError =>
      if fuel = 0 then ⟨.raised, 1, []⟩
      else
        let r := fetchRetryGo env (i + 1) fuel
        ⟨r.result, r.attempts + 1, 3000 * (i + 1) :: r.backoffs⟩

/-- `fetchWithRetry(url, options, retries)` as a trace over the attempt
outcomes; the source always calls it with the default `retries = 3`. -/
def fetchWithRetry (env : Nat → AttemptOutcome) (retries : Nat) : RetryRun :=
  fetchRetryGo env 0 retries

/-! ### The `/offer` route (`server.js`) -/

/-- JavaScript rounding and the offer formula
`Math.round((mid * 0.5 + Number.EPSILON) * 100) / 100`. -/
def jsRound (x : ℚ) : ℤ := ⌊x + 1 / 2⌋

/-- `Number.EPSILON = 2⁻⁵²`, exactly. -/
def numberEPSILON : ℚ := 1 / 4503599627370496

/-- The `fixedOffer` computation of the route handler. -/
def fixedOffer (mid : ℚ) : ℚ :=
  (jsRound ((mid * (1 / 2) + numberEPSILON) * 100) : ℚ) / 100

/-- Specification-side rounding: round to 2 decimal places, half-up. -/
def roundTo2HalfUp (x : ℚ) : ℚ := (⌊x * 100 + 1 / 2⌋ : ℚ) / 100

/-- Round-to-nearest of a rational already scaled to integer position: the
nearest integer, taking the even one on a half-way tie. -/
def roundEven (x : ℚ) : ℤ :=
  if 1 / 2 < x - ⌊x⌋ then ⌊x⌋ + 1
  else if x - ⌊x⌋ < 1 / 2 then ⌊x⌋
  else if ⌊x⌋ % 2 = 0 then ⌊x⌋ else ⌊x⌋ + 1

/-- The exact value of the IEEE-754 binary64 double nearest a rational
(round to nearest, ties to even): scale by the ulp `2^(e-52)` of the
binade `2^e ≤ |q| < 2^(e+1)`, round the 53-bit significand to the nearest
integer with ties to even, and scale back.  This is exactly how every
JavaScript arithmetic result is rounded for values in the normal range,
which contains everything this program computes. -/
def rnd64 (q : ℚ) : ℚ :=
  if q = 0 then 0
  else if q < 0 then
    -((roundEven (-q / 2 ^ (Int.log 2 (-q) - 52)) : ℚ)
        * 2 ^ (Int.log 2 (-q) - 52))
  else (roundEven (q / 2 ^ (Int.log 2 q - 52)) : ℚ) * 2 ^ (Int.log 2 q - 52)

/-- Binary64 addition: exact sum, then correctly rounded. -/
def dAdd (a b : ℚ) : ℚ := rnd64 (a + b)

/-- Binary64 multiplication: exact product, then correctly rounded. -/
def dMul (a b : ℚ) : ℚ := rnd64 (a * b)

/-- Binary64 division: exact quotient, then correctly rounded. -/
def dDiv (a b : ℚ) : ℚ := rnd64 (a / b)

/-- `parseFloat` on a matched `digits.dd` substring as the binary64 double
the program actually stores. -/
def matchValue64 (m : JStr) : ℚ := rnd64 ((matchCents m : ℚ) / 100)

/-- `priceParse` with its arithmetic performed in binary64 as the program
runs it: `Math.min`/`Math.max` pick among already-rounded doubles exactly,
and `mid = (lo + hi) / 2` rounds the sum and the halving. -/
def priceParse64 (t : JStr) : Option ParsedPrice :=
  match (scanMatches t).map matchValue64 with
  | [] => none
  | v :: vs =>
    let lo := vs.foldl min v
    let hi := vs.foldl max v
    some ⟨lo, hi, dDiv (dAdd lo hi) 2⟩

/-- The route's `Math.round((parsed.mid * 0.5 + Number.EPSILON) * 100) / 100`
with every operation performed in binary64 as the program runs it
(`Math.round` itself returns the integer nearest the double's exact value,
ties away from below). -/
def fixedOffer64 (mid : ℚ) : ℚ :=
  dDiv (jsRound (dMul (dAdd (dMul mid (1 / 2)) numberEPSILON) 100) : ℚ) 100

/-- The observable outcome classes of a `POST /offer` request.  `notFoundOk`
is the HTTP-200 body with `ok: true, found: false, offer: null`;
`priceUnavailable` the 200 body with `found: true, offer: null`;
`validationError` the 400 body; `serverError` the 500 body. -/
inductive OfferOutcome where
  | validationError
  | notFoundOk
  | priceUnavailable
  | offerOk (offer : ℚ) (referencePrice : JStr) (matchedName : JStr)
  | serverError
deriving DecidableEq, Repr

/-- JavaScript truthiness of an optional string field: absent and empty are
falsy, every other string truthy. -/
def fieldTruthy : Option JStr → Bool
  | none => false
  | some s => !s.isEmpty

/-- The `/offer` route handler of `server.js`: validate `model`/`condition`,
obtain the catalog via `scrapeUsedPaddles` (a throw becomes the 500
response), match, parse the matched price, and compute the fixed offer. -/
def offerHandler (model condition : Option JStr) (cache : CacheState)
    (now : Int) (f : FetchOutcome) : OfferOutcome :=
  if !(fieldTruthy model && fieldTruthy condition) then .validationError
  else
    match (ServerVariant.scrapeUsedPaddles cache now f).result with
    | .thrown => .serverError
    | .ok dataset =>
      match ServerVariant.bestMatch (model.getD []) dataset with
      | none => .notFoundOk
      | some m =>
        match priceParse m.price with
        | none => .priceUnavailable
        | some p => .offerOk (fixedOffer p.mid) m.price m.name

/-- Specification-side predicate: no two adjacent whitespace code units. -/
def noAdjWs : JStr → Bool
  | c1 :: c2 :: rest => !(isWs c1 && isWs c2) && noAdjWs (c2 :: rest)
  | _ => true

/-- Specification-side predicate: every whitespace code unit is the plain
space (code 32). -/
def wsOnly32 (l : JStr) : Bool := l.all (fun c => !isWs c || c == 32)

/-- Specification-side predicate: the head, if any, is not whitespace. -/
def headOk : JStr → Bool
  | [] => true
  | c :: _ => !isWs c

/-- Specification-side invariant of the dedup fold over the processed prefix
of raw items: stored keys are distinct, every stored pair is keyed by its
listing's normalized name and its price text is at least as long as that of
every processed listing with the same key, and every processed listing's key
is present in the map. -/
def dedupInv (processed : List Listing) (m : KV) : Prop :=
  (m.map Prod.fst).Nodup
  ∧ (∀ p ∈ m, lkey p.2 = p.1
      ∧ ∀ jt ∈ processed, lkey jt = p.1
          → jt.price.length ≤ p.2.price.length)
  ∧ ∀ jt ∈ processed, lkey jt ∈ m.map Prod.fst

/-! ## Theorems -/

/-! ### C1 — stale-cache fallback on refresh failure -/

/-- C1 (counterexample): in `server.js`, with a previously cached non-empty
catalog and an expired TTL, a failed refresh is *rethrown* — the operation
does not return the stale catalog, contradicting the claim as stated. -/
theorem c1_stale_fallback_cex :
    (ServerVariant.scrapeUsedPaddles
        ⟨some [⟨enc "Paddle", enc "$10.00"⟩], 0, 300000⟩ 300001 .failure).result
      = .thrown := by decide

/-- C1 (amended): the stale fallback exists only in the `part_000`/`part_001`
variants of `scrapeUsedPaddles`: there a failed refresh returns any previously
stored catalog (JavaScript array truthiness — even an empty one) and the
failure propagates only when no catalog was ever stored; the `server.js`
variant always propagates a refresh failure, cached data or not. -/
theorem c1_stale_fallback (d : List Listing) (fa ttl now : Int)
    (h : ¬ now - fa < ttl) :
    RetryVariant.scrapeUsedPaddles ⟨some d, fa, ttl⟩ now .failure
      = ⟨.ok d, ⟨some d, fa, ttl⟩, true⟩
    ∧ RetryVariant.scrapeUsedPaddles ⟨none, fa, ttl⟩ now .failure
      = ⟨.thrown, ⟨none, fa, ttl⟩, true⟩
    ∧ ServerVariant.scrapeUsedPaddles ⟨some d, fa, ttl⟩ now .failure
      = ⟨.thrown, ⟨some d, fa, ttl⟩, true⟩
    ∧ ServerVariant.scrapeUsedPaddles ⟨none, fa, ttl⟩ now .failure
      = ⟨.thrown, ⟨none, fa, ttl⟩, true⟩ := by
  refine ⟨?_, ?_, ?_, ?_⟩ <;>
    simp [RetryVariant.scrapeUsedPaddles, ServerVariant.scrapeUsedPaddles, h]

/-- C1 (witness): the amended theorem applied at a concrete expired cache. -/
theorem c1_stale_fallback_wit :
    RetryVariant.scrapeUsedPaddles
        ⟨some [⟨enc "Paddle", enc "$10.00"⟩], 0, 300000⟩ 300001 .failure
      = ⟨.ok [⟨enc "Paddle", enc "$10.00"⟩],
         ⟨some [⟨enc "Paddle", enc "$10.00"⟩], 0, 300000⟩, true⟩ :=
  (c1_stale_fallback [⟨enc "Paddle", enc "$10.00"⟩] 0 300000 300001
    (by decide)).1

/-! ### C5 — cache TTL boundary -/

/-- C5: for a cached non-empty catalog, both variants of `scrapeUsedPaddles`
return it unchanged with no refresh attempt exactly when
`now - fetchedAt < ttl`; otherwise a refresh attempt is made (whatever its
outcome). -/
theorem c5_cache_ttl (d : List Listing) (fa ttl now : Int) (f : FetchOutcome)
    (_hd : d ≠ []) :
    (now - fa < ttl →
      ServerVariant.scrapeUsedPaddles ⟨some d, fa, ttl⟩ now f
        = ⟨.ok d, ⟨some d, fa, ttl⟩, false⟩
      ∧ RetryVariant.scrapeUsedPaddles ⟨some d, fa, ttl⟩ now f
        = ⟨.ok d, ⟨some d, fa, ttl⟩, false⟩)
    ∧ (¬ now - fa < ttl →
      (ServerVariant.scrapeUsedPaddles ⟨some d, fa, ttl⟩ now f).attempted = true
      ∧ (RetryVariant.scrapeUsedPaddles ⟨some d, fa, ttl⟩ now f).attempted
          = true) := by
  constructor
  · intro h
    constructor <;>
      simp [ServerVariant.scrapeUsedPaddles, RetryVariant.scrapeUsedPaddles, h]
  · intro h
    constructor <;> cases f <;>
      simp [ServerVariant.scrapeUsedPaddles, RetryVariant.scrapeUsedPaddles, h]

/-- C5 (witness): with `ttl = 300000`, a lookup at `fetchedAt + 299999` is a
hit with no refresh attempt, and a lookup at `fetchedAt + 300001` attempts a
refresh. -/
theorem c5_cache_ttl_wit :
    ServerVariant.scrapeUsedPaddles
        ⟨some [⟨enc "Paddle", enc "$10.00"⟩], 0, 300000⟩ 299999 .failure
      = ⟨.ok [⟨enc "Paddle", enc "$10.00"⟩],
         ⟨some [⟨enc "Paddle", enc "$10.00"⟩], 0, 300000⟩, false⟩
    ∧ (ServerVariant.scrapeUsedPaddles
        ⟨some [⟨enc "Paddle", enc "$10.00"⟩], 0, 300000⟩ 300001
          .failure).attempted = true :=
  ⟨((c5_cache_ttl [⟨enc "Paddle", enc "$10.00"⟩] 0 300000 299999 .failure
      (by decide)).1 (by decide)).1,
   ((c5_cache_ttl [⟨enc "Paddle", enc "$10.00"⟩] 0 300000 300001 .failure
      (by decide)).2 (by decide)).1⟩

/-! ### C7 — non-retryable statuses in `fetchWithRetry` -/

/-- Replacing the outcome of any attempt from an HTTP response whose status
is neither ok, nor 406, nor ≥500 by a network-level exception leaves the
whole retry loop's trace unchanged: the thrown `HTTP <status>` error is
caught by the loop's own `catch` and handled exactly like a network error. -/
theorem fetchRetryGo_subst (env : Nat → AttemptOutcome) (i0 s : Nat)
    (h1 : resOk s = false) (h2 : s ≠ 406) (h3 : s < 500)
    (henv : env i0 = .response s) :
    ∀ fuel i, fetchRetryGo env i fuel
      = fetchRetryGo (fun j => if j = i0 then AttemptOutcome.netError else env j)
          i fuel := by
  intro fuel
  induction fuel with
  | zero => intro i; rfl
  | succ n ih =>
    intro i
    simp only [fetchRetryGo]
    simp only [ih]
    by_cases hi : i = i0
    · subst hi
      have hcond : (s = 406 || 500 ≤ s) = false := by
        simp only [Bool.or_eq_false_iff, decide_eq_false_iff_not]
        exact ⟨h2, by omega⟩
      simp [henv, hcond, h1]
    · simp [hi]

/-- C7 (counterexample): three attempts all answering HTTP 404 — a status
that is neither ok, nor 406, nor ≥500.  The loop performs all 3 attempts
with backoff waits of 3000 ms and 6000 ms before finally raising, instead
of failing terminally on the first attempt with no retry and no backoff as
the claim states. -/
theorem c7_non_retryable_cex :
    fetchWithRetry (fun _ => AttemptOutcome.response 404) 3
      = ⟨.raised, 3, [3000, 6000]⟩ := by decide

/-- C7 (amended): an attempt answering a non-success status other than 406
and ≥500 throws `HTTP <status>` *inside* the `try`, so the loop's own
`catch` treats it exactly like a network-level exception — terminal only on
the final attempt, otherwise backoff and retry.  Formally: substituting a
network error for such a response leaves the entire run trace unchanged. -/
theorem c7_non_retryable (env : Nat → AttemptOutcome) (retries i0 s : Nat)
    (h1 : resOk s = false) (h2 : s ≠ 406) (h3 : s < 500)
    (henv : env i0 = .response s) :
    fetchWithRetry env retries
      = fetchWithRetry
          (fun j => if j = i0 then AttemptOutcome.netError else env j) retries :=
  fetchRetryGo_subst env i0 s h1 h2 h3 henv retries 0

/-- C7 (witness): the amended theorem applied to a run whose first attempt
answers HTTP 404. -/
theorem c7_non_retryable_wit :
    fetchWithRetry (fun _ => AttemptOutcome.response 404) 3
      = fetchWithRetry
          (fun j => if j = 0 then AttemptOutcome.netError
                    else AttemptOutcome.response 404) 3 :=
  c7_non_retryable (fun _ => AttemptOutcome.response 404) 3 0 404
    (by decide) (by decide) (by decide) rfl

/-! ### C8 — alias rewriting before matching -/

/-- C8 (counterexample): the `server.js` matcher performs no alias rewrite.
On the catalog `[{name: "Peresus Pro IV"}]` the query `"ben johns perseus"`
finds nothing, while the query `"peresus pro iv"` — what the claim says the
former is rewritten to before matching — finds the listing. -/
theorem c8_alias_cex :
    ServerVariant.bestMatch (enc "ben johns perseus")
        [⟨enc "Peresus Pro IV", enc "$199.99"⟩] = none
    ∧ ServerVariant.bestMatch (enc "peresus pro iv")
        [⟨enc "Peresus Pro IV", enc "$199.99"⟩]
      = some ⟨enc "Peresus Pro IV", enc "$199.99"⟩ := by decide

/-- C8 (amended): only the `part_000`/`part_001` matcher rewrites the
normalized query through the fixed alias table (first table key contained in
the query wins, scanning stops); there `"ben johns perseus"` rewrites to
`"peresus pro iv"`, so for every catalog the two queries match identically.
The `server.js` matcher has no alias table at all. -/
theorem c8_alias_rewrite :
    aliasRewrite (normalize (enc "ben johns perseus")) = enc "peresus pro iv"
    ∧ ∀ ds : List Listing,
        RetryVariant.bestMatch (enc "ben johns perseus") ds
          = RetryVariant.bestMatch (enc "peresus pro iv") ds := by
  constructor
  · decide
  · intro ds
    rfl

/-! ### Folded minimum/maximum (`Math.min(...nums)`, `Math.max(...nums)`) -/

/-- The folded minimum is one of the candidates. -/
theorem foldl_min_mem (vs : List ℚ) : ∀ v : ℚ, vs.foldl min v ∈ v :: vs := by
  induction vs with
  | nil => intro v; simp
  | cons w ws ih =>
    intro v
    simp only [List.foldl_cons]
    rcases List.mem_cons.mp (ih (min v w)) with h1 | h1
    · rcases min_choice v w with hm | hm
      · rw [h1, hm]; exact List.mem_cons_self _ _
      · rw [h1, hm]; exact List.mem_cons_of_mem _ (List.mem_cons_self _ _)
    · exact List.mem_cons_of_mem _ (List.mem_cons_of_mem _ h1)

/-- The folded minimum is a lower bound of the candidates. -/
theorem foldl_min_le (vs : List ℚ) :
    ∀ v x : ℚ, x ∈ v :: vs → vs.foldl min v ≤ x := by
  induction vs with
  | nil =>
    intro v x hx
    rw [List.mem_singleton] at hx
    simp [hx]
  | cons w ws ih =>
    intro v x hx
    simp only [List.foldl_cons]
    rcases List.mem_cons.mp hx with h1 | h1
    · rw [h1]
      exact le_trans (ih (min v w) _ (List.mem_cons_self _ _)) (min_le_left _ _)
    · rcases List.mem_cons.mp h1 with h2 | h2
      · rw [h2]
        exact le_trans (ih (min v w) _ (List.mem_cons_self _ _)) (min_le_right _ _)
      · exact ih (min v w) x (List.mem_cons_of_mem _ h2)

/-- The folded maximum is one of the candidates. -/
theorem foldl_max_mem (vs : List ℚ) : ∀ v : ℚ, vs.foldl max v ∈ v :: vs := by
  induction vs with
  | nil => intro v; simp
  | cons w ws ih =>
    intro v
    simp only [List.foldl_cons]
    rcases List.mem_cons.mp (ih (max v w)) with h1 | h1
    · rcases max_choice v w with hm | hm
      · rw [h1, hm]; exact List.mem_cons_self _ _
      · rw [h1, hm]; exact List.mem_cons_of_mem _ (List.mem_cons_self _ _)
    · exact List.mem_cons_of_mem _ (List.mem_cons_of_mem _ h1)

/-- The folded maximum is an upper bound of the candidates. -/
theorem le_foldl_max (vs : List ℚ) :
    ∀ v x : ℚ, x ∈ v :: vs → x ≤ vs.foldl max v := by
  induction vs with
  | nil =>
    intro v x hx
    rw [List.mem_singleton] at hx
    simp [hx]
  | cons w ws ih =>
    intro v x hx
    simp only [List.foldl_cons]
    rcases List.mem_cons.mp hx with h1 | h1
    · rw [h1]
      exact le_trans (le_max_left _ _) (ih (max v w) _ (List.mem_cons_self _ _))
    · rcases List.mem_cons.mp h1 with h2 | h2
      · rw [h2]
        exact le_trans (le_max_right _ _) (ih (max v w) _ (List.mem_cons_self _ _))
      · exact ih (max v w) x (List.mem_cons_of_mem _ h2)

/-! ### C4 — offer rounding in binary64 -/

/-- `roundEven` at a point whose fractional part is below one half. -/
theorem roundEven_eq_of_lt (x : ℚ) (f : ℤ) (hf : ⌊x⌋ = f)
    (hfr : x - (f : ℚ) < 1 / 2) : roundEven x = f := by
  unfold roundEven
  rw [hf, if_neg (not_lt.mpr (le_of_lt hfr)), if_pos hfr]

/-- `roundEven` at an exact half-way point with even floor. -/
theorem roundEven_eq_of_tie_even (x : ℚ) (f : ℤ) (hf : ⌊x⌋ = f)
    (hfr : x - (f : ℚ) = 1 / 2) (hev : f % 2 = 0) : roundEven x = f := by
  unfold roundEven
  rw [hf, if_neg (not_lt.mpr (le_of_eq hfr)),
    if_neg (not_lt.mpr (le_of_eq hfr.symm)), if_pos hev]

/-- `roundEven` at an exact half-way point with odd floor. -/
theorem roundEven_eq_of_tie_odd (x : ℚ) (f : ℤ) (hf : ⌊x⌋ = f)
    (hfr : x - (f : ℚ) = 1 / 2) (hodd : f % 2 = 1) : roundEven x = f + 1 := by
  unfold roundEven
  rw [hf, if_neg (not_lt.mpr (le_of_eq hfr)),
    if_neg (not_lt.mpr (le_of_eq hfr.symm)), if_neg (by omega)]

/-- Evaluate `rnd64` on a positive rational lying in a known binade
`2^e ≤ q < 2^(e+1)`: round the 53-bit-scaled significand to even. -/
theorem rnd64_eval (q : ℚ) (e : ℤ) (hq : 0 < q)
    (hlo : (2 : ℚ) ^ e ≤ q) (hhi : q < (2 : ℚ) ^ (e + 1)) :
    rnd64 q = (roundEven (q * 2 ^ (52 - e)) : ℚ) * 2 ^ (e - 52) := by
  have hb : (1 : ℕ) < 2 := by norm_num
  have h1 : e ≤ Int.log 2 q := by
    rw [← Int.zpow_le_iff_le_log hb hq]
    exact_mod_cast hlo
  have h2 : Int.log 2 q < e + 1 := by
    rw [← Int.lt_zpow_iff_log_lt hb hq]
    exact_mod_cast hhi
  have hlog : Int.log 2 q = e := by omega
  have hqz : q ≠ 0 := ne_of_gt hq
  have hqneg : ¬ q < 0 := not_lt.mpr (le_of_lt hq)
  unfold rnd64
  rw [if_neg hqz, if_neg hqneg, hlog]
  have hdiv : q / (2 : ℚ) ^ (e - 52) = q * 2 ^ (52 - e) := by
    rw [div_eq_mul_inv, ← zpow_neg, neg_sub]
  rw [hdiv]

/-- Evaluate `rnd64` when the scaled significand has fractional part
below one half: it rounds down to `f`. -/
theorem rnd64_eval_lt (q : ℚ) (e f : ℤ) (hq : 0 < q)
    (hlo : (2 : ℚ) ^ e ≤ q) (hhi : q < (2 : ℚ) ^ (e + 1))
    (hf : ⌊q * 2 ^ (52 - e)⌋ = f)
    (hfr : q * 2 ^ (52 - e) - (f : ℚ) < 1 / 2) :
    rnd64 q = (f : ℚ) * 2 ^ (e - 52) := by
  rw [rnd64_eval q e hq hlo hhi, roundEven_eq_of_lt _ f hf hfr]

/-- Evaluate `rnd64` at an exact half-ulp tie whose lower neighbour has an
even significand: the tie resolves down to `f`. -/
theorem rnd64_eval_tie_even (q : ℚ) (e f : ℤ) (hq : 0 < q)
    (hlo : (2 : ℚ) ^ e ≤ q) (hhi : q < (2 : ℚ) ^ (e + 1))
    (hf : ⌊q * 2 ^ (52 - e)⌋ = f)
    (hfr : q * 2 ^ (52 - e) - (f : ℚ) = 1 / 2) (hev : f % 2 = 0) :
    rnd64 q = (f : ℚ) * 2 ^ (e - 52) := by
  rw [rnd64_eval q e hq hlo hhi, roundEven_eq_of_tie_even _ f hf hfr hev]

/-- Evaluate `rnd64` at an exact half-ulp tie whose lower neighbour has an
odd significand: the tie resolves up to `f + 1`. -/
theorem rnd64_eval_tie_odd (q : ℚ) (e f : ℤ) (hq : 0 < q)
    (hlo : (2 : ℚ) ^ e ≤ q) (hhi : q < (2 : ℚ) ^ (e + 1))
    (hf : ⌊q * 2 ^ (52 - e)⌋ = f)
    (hfr : q * 2 ^ (52 - e) - (f : ℚ) = 1 / 2) (hodd : f % 2 = 1) :
    rnd64 q = ((f + 1 : ℤ) : ℚ) * 2 ^ (e - 52) := by
  rw [rnd64_eval q e hq hlo hhi, roundEven_eq_of_tie_odd _ f hf hfr hodd]

/-- `parseFloat("4.27")` stores the double `1201898150554501 / 2^48`,
which is strictly below the decimal `4.27`. -/
theorem matchValue64_427 :
    matchValue64 (enc "4.27") = 1201898150554501 / 2 ^ 48 := by
  have hmc : matchCents (enc "4.27") = 427 := by decide
  unfold matchValue64
  rw [hmc, rnd64_eval_lt (((427 : ℕ) : ℚ) / 100) 2 4807592602218004
    (by norm_num) (by norm_num) (by norm_num) (by norm_num) (by norm_num)]
  norm_num

/-- The exact-decimal parse of `"$4.27"`. -/
theorem priceParseQ_427 :
    priceParse (enc "$4.27") = some ⟨427 / 100, 427 / 100, 427 / 100⟩ := by
  have hscan : scanMatches (enc "$4.27") = [enc "4.27"] := by decide
  have hc : matchCents (enc "4.27") = 427 := by decide
  simp only [priceParse, hscan, List.map_cons, List.map_nil, matchValue, hc,
    List.foldl_nil, Option.some.injEq, ParsedPrice.mk.injEq]
  norm_num

/-- The binary64 parse of `"$4.27"`: all three fields are the double
nearest `4.27`. -/
theorem priceParse64_427 :
    priceParse64 (enc "$4.27") = some ⟨1201898150554501 / 2 ^ 48,
      1201898150554501 / 2 ^ 48, 1201898150554501 / 2 ^ 48⟩ := by
  have hscan : scanMatches (enc "$4.27") = [enc "4.27"] := by decide
  have hadd : dAdd (1201898150554501 / 2 ^ 48) (1201898150554501 / 2 ^ 48)
      = 1201898150554501 / 2 ^ 47 := by
    unfold dAdd
    rw [rnd64_eval_lt
      ((1201898150554501 : ℚ) / 2 ^ 48 + 1201898150554501 / 2 ^ 48) 3
      4807592602218004 (by norm_num) (by norm_num) (by norm_num)
      (by norm_num) (by norm_num)]
    norm_num
  have hdiv : dDiv (1201898150554501 / 2 ^ 47) 2
      = 1201898150554501 / 2 ^ 48 := by
    unfold dDiv
    rw [rnd64_eval_lt ((1201898150554501 : ℚ) / 2 ^ 47 / 2) 2
      4807592602218004 (by norm_num) (by norm_num) (by norm_num)
      (by norm_num) (by norm_num)]
    norm_num
  simp only [priceParse64, hscan, List.map_cons, List.map_nil,
    matchValue64_427, List.foldl_nil]
  rw [hadd, hdiv]

/-- Step `mid * 0.5` of the offer for the `"$4.27"` midpoint: exact. -/
theorem d427_half : dMul ((1201898150554501 : ℚ) / 2 ^ 48) (1 / 2)
    = 1201898150554501 / 2 ^ 49 := by
  unfold dMul
  rw [rnd64_eval_lt ((1201898150554501 : ℚ) / 2 ^ 48 * (1 / 2)) 1
    4807592602218004 (by norm_num) (by norm_num) (by norm_num)
    (by norm_num) (by norm_num)]
  norm_num

/-- Step `+ Number.EPSILON`: the exact sum is a half-ulp tie that rounds
back down (even significand), so the nudge is annihilated. -/
theorem d427_eps : dAdd ((1201898150554501 : ℚ) / 2 ^ 49) numberEPSILON
    = 1201898150554501 / 2 ^ 49 := by
  have hE : numberEPSILON = 1 / 4503599627370496 := rfl
  unfold dAdd
  rw [hE, rnd64_eval_tie_even
    ((1201898150554501 : ℚ) / 2 ^ 49 + 1 / 4503599627370496) 1
    4807592602218004 (by norm_num) (by norm_num) (by norm_num)
    (by norm_num) (by norm_num) (by norm_num)]
  norm_num

/-- Step `* 100`: the product rounds to the double just below `213.5`. -/
theorem d427_scale : dMul ((1201898150554501 : ℚ) / 2 ^ 49) 100
    = 7511863440965631 / 2 ^ 45 := by
  unfold dMul
  rw [rnd64_eval_lt ((1201898150554501 : ℚ) / 2 ^ 49 * 100) 7
    7511863440965631 (by norm_num) (by norm_num) (by norm_num)
    (by norm_num) (by norm_num)]
  norm_num

/-- `Math.round` of the double just below `213.5` is `213`, not `214`. -/
theorem d427_round : jsRound ((7511863440965631 : ℚ) / 2 ^ 45) = 213 := by
  unfold jsRound
  norm_num

/-- Final step `/ 100`: the double nearest `2.13`. -/
theorem d427_cents : dDiv (((213 : ℤ) : ℚ)) 100
    = 2398166801574789 / 2 ^ 50 := by
  unfold dDiv
  have hc : ((213 : ℤ) : ℚ) = 213 := by norm_num
  rw [hc, rnd64_eval_lt ((213 : ℚ) / 100) 1 4796333603149578
    (by norm_num) (by norm_num) (by norm_num) (by norm_num) (by norm_num)]
  norm_num

/-- The full binary64 offer at the `"$4.27"` midpoint: the double nearest
`2.13`. -/
theorem fixedOffer64_427 : fixedOffer64 ((1201898150554501 : ℚ) / 2 ^ 48)
    = 2398166801574789 / 2 ^ 50 := by
  unfold fixedOffer64
  rw [d427_half, d427_eps, d427_scale, d427_round, d427_cents]

/-- Round-half-up of half the exact decimal `4.27` is `2.14`. -/
theorem roundTo2_427 : roundTo2HalfUp ((427 : ℚ) / 100 * (1 / 2))
    = 214 / 100 := by
  unfold roundTo2HalfUp
  norm_num

/-- Round-half-up of half the stored double of `4.27` is `2.13`: the double
sits below the midpoint, so even the exact specification rounds down. -/
theorem roundTo2_d427 :
    roundTo2HalfUp ((1201898150554501 : ℚ) / 2 ^ 48 * (1 / 2))
      = 213 / 100 := by
  unfold roundTo2HalfUp
  norm_num

/-- `parseFloat("120.00")` is exactly `120`. -/
theorem matchValue64_120 : matchValue64 (enc "120.00") = 120 := by
  have hmc : matchCents (enc "120.00") = 12000 := by decide
  unfold matchValue64
  rw [hmc, rnd64_eval_lt (((12000 : ℕ) : ℚ) / 100) 6 8444249301319680
    (by norm_num) (by norm_num) (by norm_num) (by norm_num) (by norm_num)]
  norm_num

/-- `parseFloat("150.00")` is exactly `150`. -/
theorem matchValue64_150 : matchValue64 (enc "150.00") = 150 := by
  have hmc : matchCents (enc "150.00") = 15000 := by decide
  unfold matchValue64
  rw [hmc, rnd64_eval_lt (((15000 : ℕ) : ℚ) / 100) 7 5277655813324800
    (by norm_num) (by norm_num) (by norm_num) (by norm_num) (by norm_num)]
  norm_num

/-- The binary64 parse of `"$120.00 - $150.00"`: every step is exact and
the midpoint is exactly `135`. -/
theorem priceParse64_120_150 : priceParse64 (enc "$120.00 - $150.00")
    = some ⟨120, 150, 135⟩ := by
  have hscan : scanMatches (enc "$120.00 - $150.00")
      = [enc "120.00", enc "150.00"] := by decide
  have hmin : min (120 : ℚ) 150 = 120 := by norm_num [min_def]
  have hmax : max (120 : ℚ) 150 = 150 := by norm_num [max_def]
  have hadd : dAdd (120 : ℚ) 150 = 270 := by
    unfold dAdd
    rw [rnd64_eval_lt ((120 : ℚ) + 150) 8 4749890231992320
      (by norm_num) (by norm_num) (by norm_num) (by norm_num) (by norm_num)]
    norm_num
  have hdiv : dDiv (270 : ℚ) 2 = 135 := by
    unfold dDiv
    rw [rnd64_eval_lt ((270 : ℚ) / 2) 7 4749890231992320
      (by norm_num) (by norm_num) (by norm_num) (by norm_num) (by norm_num)]
    norm_num
  simp only [priceParse64, hscan, List.map_cons, List.map_nil,
    matchValue64_120, matchValue64_150, List.foldl_cons, List.foldl_nil]
  rw [hmin, hmax, hadd, hdiv]

/-- Offer step `135 * 0.5`: exact. -/
theorem d135_half : dMul (135 : ℚ) (1 / 2) = 135 / 2 := by
  unfold dMul
  rw [rnd64_eval_lt ((135 : ℚ) * (1 / 2)) 6 4749890231992320
    (by norm_num) (by norm_num) (by norm_num) (by norm_num) (by norm_num)]
  norm_num

/-- Offer step `67.5 + Number.EPSILON`: the nudge is below a half ulp and
rounds away. -/
theorem d135_eps : dAdd ((135 : ℚ) / 2) numberEPSILON = 135 / 2 := by
  have hE : numberEPSILON = 1 / 4503599627370496 := rfl
  unfold dAdd
  rw [hE, rnd64_eval_lt ((135 : ℚ) / 2 + 1 / 4503599627370496) 6
    4749890231992320 (by norm_num) (by norm_num) (by norm_num)
    (by norm_num) (by norm_num)]
  norm_num

/-- Offer step `67.5 * 100`: exact. -/
theorem d135_scale : dMul ((135 : ℚ) / 2) 100 = 6750 := by
  unfold dMul
  rw [rnd64_eval_lt ((135 : ℚ) / 2 * 100) 12 7421703487488000
    (by norm_num) (by norm_num) (by norm_num) (by norm_num) (by norm_num)]
  norm_num

/-- `Math.round(6750)` is `6750`. -/
theorem d135_round : jsRound ((6750 : ℚ)) = 6750 := by
  unfold jsRound
  norm_num

/-- Final step `6750 / 100`: exactly `67.5`. -/
theorem d135_cents : dDiv (((6750 : ℤ) : ℚ)) 100 = 135 / 2 := by
  unfold dDiv
  have hc : ((6750 : ℤ) : ℚ) = 6750 := by norm_num
  rw [hc, rnd64_eval_lt ((6750 : ℚ) / 100) 6 4749890231992320
    (by norm_num) (by norm_num) (by norm_num) (by norm_num) (by norm_num)]
  norm_num

/-- The full binary64 offer at midpoint `135` is exactly `67.5`. -/
theorem fixedOffer64_135 : fixedOffer64 (135 : ℚ) = 135 / 2 := by
  unfold fixedOffer64
  rw [d135_half, d135_eps, d135_scale, d135_round, d135_cents]

/-- Round-half-up of `135 * 0.5` is `67.5`. -/
theorem roundTo2_135 : roundTo2HalfUp ((135 : ℚ) * (1 / 2)) = 135 / 2 := by
  unfold roundTo2HalfUp
  norm_num

/-- `parseFloat("99.99")` stores the double `7036170730324623 / 2^46`. -/
theorem matchValue64_9999 :
    matchValue64 (enc "99.99") = 7036170730324623 / 2 ^ 46 := by
  have hmc : matchCents (enc "99.99") = 9999 := by decide
  unfold matchValue64
  rw [hmc, rnd64_eval_lt (((9999 : ℕ) : ℚ) / 100) 6 7036170730324623
    (by norm_num) (by norm_num) (by norm_num) (by norm_num) (by norm_num)]
  norm_num

/-- `parseFloat("100.00")` is exactly `100`. -/
theorem matchValue64_10000 : matchValue64 (enc "100.00") = 100 := by
  have hmc : matchCents (enc "100.00") = 10000 := by decide
  unfold matchValue64
  rw [hmc, rnd64_eval_lt (((10000 : ℕ) : ℚ) / 100) 6 7036874417766400
    (by norm_num) (by norm_num) (by norm_num) (by norm_num) (by norm_num)]
  norm_num

/-- The binary64 parse of `"$99.99 to $100.00"`: the sum `lo + hi` is a
half-ulp tie with odd lower significand, so it rounds up, and the stored
midpoint is the double nearest `99.995`. -/
theorem priceParse64_9999_10000 : priceParse64 (enc "$99.99 to $100.00")
    = some ⟨7036170730324623 / 2 ^ 46, 100, 879565321755689 / 2 ^ 43⟩ := by
  have hscan : scanMatches (enc "$99.99 to $100.00")
      = [enc "99.99", enc "100.00"] := by decide
  have hmin : min ((7036170730324623 : ℚ) / 2 ^ 46) 100
      = 7036170730324623 / 2 ^ 46 := by
    rw [min_def]
    norm_num
  have hmax : max ((7036170730324623 : ℚ) / 2 ^ 46) 100 = 100 := by
    rw [max_def]
    norm_num
  have hadd : dAdd ((7036170730324623 : ℚ) / 2 ^ 46) 100
      = 879565321755689 / 2 ^ 42 := by
    unfold dAdd
    rw [rnd64_eval_tie_odd ((7036170730324623 : ℚ) / 2 ^ 46 + 100) 7
      7036522574045511 (by norm_num) (by norm_num) (by norm_num)
      (by norm_num) (by norm_num) (by norm_num)]
    norm_num
  have hdiv : dDiv ((879565321755689 : ℚ) / 2 ^ 42) 2
      = 879565321755689 / 2 ^ 43 := by
    unfold dDiv
    rw [rnd64_eval_lt ((879565321755689 : ℚ) / 2 ^ 42 / 2) 6
      7036522574045512 (by norm_num) (by norm_num) (by norm_num)
      (by norm_num) (by norm_num)]
    norm_num
  simp only [priceParse64, hscan, List.map_cons, List.map_nil,
    matchValue64_9999, matchValue64_10000, List.foldl_cons, List.foldl_nil]
  rw [hmin, hmax, hadd, hdiv]

/-- Offer step `mid * 0.5` for the `"$99.99 to $100.00"` midpoint: exact. -/
theorem d99_half : dMul ((879565321755689 : ℚ) / 2 ^ 43) (1 / 2)
    = 879565321755689 / 2 ^ 44 := by
  unfold dMul
  rw [rnd64_eval_lt ((879565321755689 : ℚ) / 2 ^ 43 * (1 / 2)) 5
    7036522574045512 (by norm_num) (by norm_num) (by norm_num)
    (by norm_num) (by norm_num)]
  norm_num

/-- Offer step `+ Number.EPSILON`: below a half ulp, rounds away. -/
theorem d99_eps : dAdd ((879565321755689 : ℚ) / 2 ^ 44) numberEPSILON
    = 879565321755689 / 2 ^ 44 := by
  have hE : numberEPSILON = 1 / 4503599627370496 := rfl
  unfold dAdd
  rw [hE, rnd64_eval_lt
    ((879565321755689 : ℚ) / 2 ^ 44 + 1 / 4503599627370496) 5
    7036522574045512 (by norm_num) (by norm_num) (by norm_num)
    (by norm_num) (by norm_num)]
  norm_num

/-- Offer step `* 100`: rounds to exactly `4999.75`. -/
theorem d99_scale : dMul ((879565321755689 : ℚ) / 2 ^ 44) 100
    = 19999 / 4 := by
  unfold dMul
  rw [rnd64_eval_lt ((879565321755689 : ℚ) / 2 ^ 44 * 100) 12
    5497283260973056 (by norm_num) (by norm_num) (by norm_num)
    (by norm_num) (by norm_num)]
  norm_num

/-- `Math.round(4999.75)` is `5000`. -/
theorem d99_round : jsRound ((19999 : ℚ) / 4) = 5000 := by
  unfold jsRound
  norm_num

/-- Final step `5000 / 100`: exactly `50`. -/
theorem d99_cents : dDiv (((5000 : ℤ) : ℚ)) 100 = 50 := by
  unfold dDiv
  have hc : ((5000 : ℤ) : ℚ) = 5000 := by norm_num
  rw [hc, rnd64_eval_lt ((5000 : ℚ) / 100) 5 7036874417766400
    (by norm_num) (by norm_num) (by norm_num) (by norm_num) (by norm_num)]
  norm_num

/-- The full binary64 offer at the stored midpoint of `"$99.99 to $100.00"`
is exactly `50`. -/
theorem fixedOffer64_99995 :
    fixedOffer64 ((879565321755689 : ℚ) / 2 ^ 43) = 50 := by
  unfold fixedOffer64
  rw [d99_half, d99_eps, d99_scale, d99_round, d99_cents]

/-- Round-half-up of half the stored midpoint is also `50`. -/
theorem roundTo2_99995 :
    roundTo2HalfUp ((879565321755689 : ℚ) / 2 ^ 43 * (1 / 2)) = 50 := by
  unfold roundTo2HalfUp
  norm_num

/-- C4 (counterexample): on the price text `"$4.27"` the binary64 program
does not round half-up.  The exact decimal midpoint is `4.27` and
round-half-up of its half is `2.14`, but the program stores the double
`1201898150554501/2^48 < 4.27`; `(mid * 0.5 + Number.EPSILON) * 100`
evaluates to the double just below `213.5`, `Math.round` gives `213`
cents, and the offer is the double nearest `2.13` — strictly less than
the `2.14` that round-half-up produces. -/
theorem c4_offer_round_half_up_cex :
    priceParse (enc "$4.27") = some ⟨427 / 100, 427 / 100, 427 / 100⟩
    ∧ priceParse64 (enc "$4.27") = some ⟨1201898150554501 / 2 ^ 48,
        1201898150554501 / 2 ^ 48, 1201898150554501 / 2 ^ 48⟩
    ∧ jsRound (dMul (dAdd (dMul ((1201898150554501 : ℚ) / 2 ^ 48) (1 / 2))
        numberEPSILON) 100) = 213
    ∧ fixedOffer64 ((1201898150554501 : ℚ) / 2 ^ 48)
        = 2398166801574789 / 2 ^ 50
    ∧ roundTo2HalfUp ((427 : ℚ) / 100 * (1 / 2)) = 214 / 100
    ∧ fixedOffer64 ((1201898150554501 : ℚ) / 2 ^ 48)
        < roundTo2HalfUp ((427 : ℚ) / 100 * (1 / 2)) := by
  refine ⟨priceParseQ_427, priceParse64_427, ?_, fixedOffer64_427,
    roundTo2_427, ?_⟩
  · rw [d427_half, d427_eps, d427_scale]
    exact d427_round
  · rw [fixedOffer64_427, roundTo2_427]
    norm_num

/-- C4 (amended): the binary64 offer computation agrees with round-half-up
to two decimals at the claim's two instances — a parse with midpoint
`135.00` yields offer `67.50`, and the parse of `"$99.99 to $100.00"`,
whose stored midpoint is the double nearest `99.995`, yields offer
`50.00` — though not at every parsed midpoint. -/
theorem c4_offer_round_half_up :
    (∃ p : ParsedPrice, priceParse64 (enc "$120.00 - $150.00") = some p
      ∧ p.mid = 135
      ∧ fixedOffer64 p.mid = roundTo2HalfUp (p.mid * (1 / 2))
      ∧ fixedOffer64 p.mid = 135 / 2)
    ∧ (∃ p : ParsedPrice, priceParse64 (enc "$99.99 to $100.00") = some p
      ∧ fixedOffer64 p.mid = roundTo2HalfUp (p.mid * (1 / 2))
      ∧ fixedOffer64 p.mid = 50) := by
  constructor
  · refine ⟨⟨120, 150, 135⟩, priceParse64_120_150, rfl, ?_, ?_⟩
    · show fixedOffer64 (135 : ℚ) = roundTo2HalfUp ((135 : ℚ) * (1 / 2))
      rw [fixedOffer64_135, roundTo2_135]
    · exact fixedOffer64_135
  · refine ⟨⟨7036170730324623 / 2 ^ 46, 100, 879565321755689 / 2 ^ 43⟩,
      priceParse64_9999_10000, ?_, ?_⟩
    · show fixedOffer64 ((879565321755689 : ℚ) / 2 ^ 43)
        = roundTo2HalfUp ((879565321755689 : ℚ) / 2 ^ 43 * (1 / 2))
      rw [fixedOffer64_99995, roundTo2_99995]
    · exact fixedOffer64_99995

/-! ### C2 — substring phase scoring -/

/-- The substring-phase step yields no candidate exactly when there was none
and the current item is not a containment match. -/
theorem substrStep_none_iff (q : JStr) (acc : Option Scored) (item : Listing) :
    substrStep q acc item = none ↔ acc = none ∧ contQ q item = false := by
  unfold substrStep
  by_cases hc : contQ q item
  · simp only [hc, if_true]
    cases acc with
    | none => simp [hc]
    | some c => by_cases hs : c.score < ovl q item <;> simp [hs, hc]
  · have hc2 : contQ q item = false := by simpa using hc
    simp [hc2]

/-- On a containment match the step produces a candidate whose score is at
least the item's overlap and at least the previous candidate's score. -/
theorem substrStep_cont_some (q : JStr) (acc : Option Scored) (item : Listing)
    (hc : contQ q item = true) :
    ∃ d, substrStep q acc item = some d ∧ ovl q item ≤ d.score
      ∧ ∀ a, acc = some a → a.score ≤ d.score := by
  cases acc with
  | none =>
    exact ⟨⟨item, ovl q item⟩, by simp [substrStep, hc], le_refl _, by simp⟩
  | some a =>
    by_cases hs : a.score < ovl q item
    · refine ⟨⟨item, ovl q item⟩, by simp [substrStep, hc, hs], le_refl _, ?_⟩
      intro b hb
      rw [← Option.some.inj hb]
      exact le_of_lt hs
    · refine ⟨a, by simp [substrStep, hc, hs], le_of_not_lt hs, ?_⟩
      intro b hb
      rw [← Option.some.inj hb]

/-- On a non-containment item the step leaves the candidate unchanged. -/
theorem substrStep_no_cont (q : JStr) (acc : Option Scored) (item : Listing)
    (hc : contQ q item = false) : substrStep q acc item = acc := by
  simp [substrStep, hc]

/-- A run of the substring loop ending with no candidate started with none
and saw no containment match. -/
theorem substrFold_none (q : JStr) :
    ∀ (ds : List Listing) (acc : Option Scored),
      ds.foldl (substrStep q) acc = none →
      acc = none ∧ ∀ it ∈ ds, contQ q it = false := by
  intro ds
  induction ds with
  | nil =>
    intro acc h
    exact ⟨h, by simp⟩
  | cons it rest ih =>
    intro acc h
    rw [List.foldl_cons] at h
    obtain ⟨h1, h2⟩ := ih _ h
    obtain ⟨h3, h4⟩ := (substrStep_none_iff q acc it).mp h1
    refine ⟨h3, ?_⟩
    intro jt hjt
    rcases List.mem_cons.mp hjt with h5 | h5
    · rw [h5]; exact h4
    · exact h2 jt h5

/-- A run of the substring loop ending with candidate `c` either kept the
initial candidate or picked a containment match from the list, its score is
that match's overlap, and it dominates the overlap of every containment
match seen as well as the initial candidate's score. -/
theorem substrFold_some (q : JStr) :
    ∀ (ds : List Listing) (acc : Option Scored) (c : Scored),
      ds.foldl (substrStep q) acc = some c →
      (acc = some c
        ∨ (c.item ∈ ds ∧ contQ q c.item = true ∧ c.score = ovl q c.item))
      ∧ (∀ it ∈ ds, contQ q it = true → ovl q it ≤ c.score)
      ∧ (∀ a, acc = some a → a.score ≤ c.score) := by
  intro ds
  induction ds with
  | nil =>
    intro acc c h
    simp only [List.foldl_nil] at h
    refine ⟨Or.inl h, by simp, ?_⟩
    intro a ha
    exact le_of_eq (congrArg Scored.score (Option.some.inj (ha.symm.trans h)))
  | cons it rest ih =>
    intro acc c h
    rw [List.foldl_cons] at h
    obtain ⟨h1, h2, h3⟩ := ih (substrStep q acc it) c h
    refine ⟨?_, ?_, ?_⟩
    · rcases h1 with h1 | h1
      · by_cases hc : contQ q it
        · cases acc with
          | none =>
            have hstep : substrStep q none it = some ⟨it, ovl q it⟩ := by
              simp [substrStep, hc]
            have hceq : (⟨it, ovl q it⟩ : Scored) = c :=
              Option.some.inj (hstep.symm.trans h1)
            right
            rw [← hceq]
            exact ⟨List.mem_cons_self _ _, hc, rfl⟩
          | some a =>
            by_cases hs : a.score < ovl q it
            · have hstep : substrStep q (some a) it = some ⟨it, ovl q it⟩ := by
                simp [substrStep, hc, hs]
              have hceq : (⟨it, ovl q it⟩ : Scored) = c :=
                Option.some.inj (hstep.symm.trans h1)
              right
              rw [← hceq]
              exact ⟨List.mem_cons_self _ _, hc, rfl⟩
            · have hstep : substrStep q (some a) it = some a := by
                simp [substrStep, hc, hs]
              left
              exact hstep.symm.trans h1
        · left
          have hc2 : contQ q it = false := by simpa using hc
          rw [← substrStep_no_cont q acc it hc2]
          exact h1
      · right
        exact ⟨List.mem_cons_of_mem _ h1.1, h1.2.1, h1.2.2⟩
    · intro jt hjt hcj
      rcases List.mem_cons.mp hjt with h5 | h5
      · obtain ⟨d, hd, hovl, -⟩ :=
          substrStep_cont_some q acc it (by rw [← h5]; exact hcj)
        rw [h5]
        exact le_trans hovl (h3 d hd)
      · exact h2 jt h5 hcj
    · intro a ha
      by_cases hc : contQ q it
      · obtain ⟨d, hd, -, hmono⟩ := substrStep_cont_some q acc it hc
        exact le_trans (hmono a ha) (h3 d hd)
      · have hc2 : contQ q it = false := by simpa using hc
        refine h3 a ?_
        rw [substrStep_no_cont q acc it hc2]
        exact ha

/-- C2 (counterexample): the `part_000`/`part_001` substring phase returns
the *first* containment match in catalog order, not the best-scoring one.
With query `"gearbox pro elite"` and catalog `[{name:"Pro"},
{name:"Gearbox Pro Elite"}]` it returns the `"Pro"` listing (overlap 3)
although the second listing is a containment match with overlap 17. -/
theorem c2_substring_best_cex :
    RetryVariant.bestMatch (enc "gearbox pro elite")
        [⟨enc "Pro", enc "$50.00"⟩, ⟨enc "Gearbox Pro Elite", enc "$90.00"⟩]
      = some ⟨enc "Pro", enc "$50.00"⟩
    ∧ contQ (normalize (enc "gearbox pro elite"))
        ⟨enc "Gearbox Pro Elite", enc "$90.00"⟩ = true
    ∧ ovl (normalize (enc "gearbox pro elite")) ⟨enc "Pro", enc "$50.00"⟩
        < ovl (normalize (enc "gearbox pro elite"))
            ⟨enc "Gearbox Pro Elite", enc "$90.00"⟩ := by
  refine ⟨by decide, by decide, by decide⟩

/-- C2 (amended): the best-overlap behaviour holds for the `server.js`
matcher: whenever the normalized query is non-empty and some catalog entry
is a containment match, `bestMatch` returns a containment match whose
overlap score (`min` of the two lengths) is maximal among all containment
matches in the catalog.  The `part_000`/`part_001` matcher instead returns
the first containment match in catalog order (see the counterexample). -/
theorem c2_substring_best (model : JStr) (ds : List Listing)
    (hq : normalize model ≠ [])
    (hex : ∃ it, it ∈ ds ∧ contQ (normalize model) it = true) :
    ∃ c : Scored,
      ds.foldl (substrStep (normalize model)) none = some c
      ∧ ServerVariant.bestMatch model ds = some c.item
      ∧ c.item ∈ ds
      ∧ contQ (normalize model) c.item = true
      ∧ c.score = ovl (normalize model) c.item
      ∧ ∀ it ∈ ds, contQ (normalize model) it = true
          → ovl (normalize model) it ≤ c.score := by
  cases hf : ds.foldl (substrStep (normalize model)) none with
  | none =>
    obtain ⟨-, hall⟩ := substrFold_none (normalize model) ds none hf
    rcases hex with ⟨it, hit, hcont⟩
    rw [hall it hit] at hcont
    exact absurd hcont (by simp)
  | some c =>
    obtain ⟨h1, h2, -⟩ := substrFold_some (normalize model) ds none c hf
    rcases h1 with h1 | h1
    · exact Option.noConfusion h1
    · refine ⟨c, rfl, ?_, h1.1, h1.2.1, h1.2.2, h2⟩
      have hne : (normalize model).isEmpty = false := by
        cases hn : normalize model with
        | nil => exact absurd hn hq
        | cons a l => rfl
      simp [ServerVariant.bestMatch, hne, hf]

/-- C2 (witness): the amended theorem applied to the query
`"gearbox pro elite"` over the two-entry catalog of the counterexample;
the `server.js` matcher picks the overlap-17 entry. -/
theorem c2_substring_best_wit :
    ∃ c : Scored,
      [⟨enc "Pro", enc "$50.00"⟩,
       ⟨enc "Gearbox Pro Elite", enc "$90.00"⟩].foldl
          (substrStep (normalize (enc "gearbox pro elite"))) none = some c
      ∧ ServerVariant.bestMatch (enc "gearbox pro elite")
          [⟨enc "Pro", enc "$50.00"⟩, ⟨enc "Gearbox Pro Elite", enc "$90.00"⟩]
        = some c.item
      ∧ c.item ∈ [⟨enc "Pro", enc "$50.00"⟩,
          (⟨enc "Gearbox Pro Elite", enc "$90.00"⟩ : Listing)]
      ∧ contQ (normalize (enc "gearbox pro elite")) c.item = true
      ∧ c.score = ovl (normalize (enc "gearbox pro elite")) c.item
      ∧ ∀ it ∈ [⟨enc "Pro", enc "$50.00"⟩,
          (⟨enc "Gearbox Pro Elite", enc "$90.00"⟩ : Listing)],
          contQ (normalize (enc "gearbox pro elite")) it = true
          → ovl (normalize (enc "gearbox pro elite")) it ≤ c.score :=
  c2_substring_best (enc "gearbox pro elite")
    [⟨enc "Pro", enc "$50.00"⟩, ⟨enc "Gearbox Pro Elite", enc "$90.00"⟩]
    (by decide)
    ⟨⟨enc "Gearbox Pro Elite", enc "$90.00"⟩, by decide, by decide⟩

/-! ### C3 — `priceParse` extraction -/

/-- A digit run followed by `. d d` always exhibits a
`digit . digit digit` window. -/
theorem pattern_of_parts :
    ∀ (ds : JStr) (d1 d2 : Nat) (r : JStr), ds ≠ [] →
      (∀ c ∈ ds, isDigit c = true) → isDigit d1 = true → isDigit d2 = true →
      hasPattern (ds ++ 46 :: d1 :: d2 :: r) = true := by
  intro ds
  induction ds with
  | nil =>
    intro d1 d2 r h
    exact absurd rfl h
  | cons d ds2 ih =>
    intro d1 d2 r _ hdig h1 h2
    cases ds2 with
    | nil =>
      have hd : isDigit d = true := hdig d (List.mem_cons_self _ _)
      simp [hasPattern, window0, hd, h1, h2]
    | cons e ds3 =>
      have ht : hasPattern ((e :: ds3) ++ 46 :: d1 :: d2 :: r) = true :=
        ih d1 d2 r (by simp) (fun c hc => hdig c (List.mem_cons_of_mem _ hc))
          h1 h2
      rw [List.cons_append]
      have hstep : hasPattern (d :: ((e :: ds3) ++ 46 :: d1 :: d2 :: r))
          = (window0 (d :: ((e :: ds3) ++ 46 :: d1 :: d2 :: r))
             || hasPattern ((e :: ds3) ++ 46 :: d1 :: d2 :: r)) := rfl
      rw [hstep, ht, Bool.or_true]

/-- A successful anchored match witnesses the pattern. -/
theorem matchAt_pattern (l : JStr) (p : JStr × JStr)
    (h : matchAt l = some p) : hasPattern l = true := by
  unfold matchAt at h
  split at h
  · exact Option.noConfusion h
  · next d ds d1 d2 rest heq1 heq2 =>
    split at h
    · next hdd =>
      obtain ⟨hd1, hd2⟩ := Bool.and_eq_true_iff.mp hdd
      have hl : (d :: ds) ++ 46 :: d1 :: d2 :: rest = l := by
        rw [← heq1, ← heq2]
        exact List.takeWhile_append_dropWhile isDigit l
      rw [← hl]
      refine pattern_of_parts (d :: ds) d1 d2 rest (by simp) ?_ hd1 hd2
      intro c hc
      exact List.mem_takeWhile_imp (heq1 ▸ hc)
    · exact Option.noConfusion h
  · exact Option.noConfusion h

/-- A `digit . digit digit` window at the head makes the anchored match
succeed. -/
theorem matchAt_of_window0 (l : JStr) (hw : window0 l = true) :
    matchAt l ≠ none := by
  rcases l with - | ⟨a, - | ⟨b, - | ⟨c, - | ⟨d, r⟩⟩⟩⟩ <;>
    simp only [window0] at hw
  · exact Bool.noConfusion hw
  · exact Bool.noConfusion hw
  · exact Bool.noConfusion hw
  · exact Bool.noConfusion hw
  · simp only [Bool.and_eq_true, decide_eq_true_eq] at hw
    obtain ⟨⟨⟨ha, hb⟩, hc⟩, hd⟩ := hw
    subst hb
    simp [matchAt, List.takeWhile_cons, List.dropWhile_cons, ha, hc, hd,
      show isDigit 46 = false from rfl]

/-- With enough fuel, the global scan finds a match exactly when the text
has a `digit . digit digit` window. -/
theorem scanGo_empty_iff :
    ∀ (fuel : Nat) (l : JStr), l.length ≤ fuel →
      (scanGo fuel l = [] ↔ hasPattern l = false) := by
  intro fuel
  induction fuel with
  | zero =>
    intro l hl
    have h0 : l = [] := List.length_eq_zero.mp (Nat.le_zero.mp hl)
    subst h0
    simp [scanGo, hasPattern]
  | succ n ih =>
    intro l hl
    cases l with
    | nil => simp [scanGo, hasPattern]
    | cons c cs =>
      cases hm : matchAt (c :: cs) with
      | some p =>
        have h2 : hasPattern (c :: cs) = true := matchAt_pattern _ _ hm
        rcases p with ⟨m, rest⟩
        simp only [scanGo, hm, h2]
        simp
      | none =>
        have h2 : window0 (c :: cs) = false := by
          by_contra hw
          exact matchAt_of_window0 _ (by simpa using hw) hm
        have h3 : hasPattern (c :: cs) = hasPattern cs := by
          simp only [hasPattern, h2, Bool.false_or]
        simp only [scanGo, hm, h3]
        exact ih cs (Nat.le_of_succ_le_succ (by simpa using hl))

/-- `priceParse` returns `null` exactly when the text has no substring of
the form digits, decimal point, two digits. -/
theorem priceParse_none_iff (t : JStr) :
    priceParse t = none ↔ hasPattern t = false := by
  have h := scanGo_empty_iff t.length t (le_refl _)
  rw [show scanGo t.length t = scanMatches t from rfl] at h
  cases hs : scanMatches t with
  | nil =>
    rw [hs] at h
    simp [priceParse, hs, ← h]
  | cons m ms =>
    rw [hs] at h
    have h2 : hasPattern t = true := by
      by_contra hc
      exact List.noConfusion (h.mpr (by simpa using hc))
    simp [priceParse, hs, h2]

/-- C3: `priceParse` returns none exactly when the text contains no
substring of the form one-or-more digits, a decimal point, then two digits;
otherwise `lo` is the minimum, `hi` the maximum and `mid` their average over
all extracted values, and a single extracted value `v` gives
`lo = hi = mid = v`. -/
theorem c3_priceParse (t : JStr) :
    (priceParse t = none ↔ hasPattern t = false)
    ∧ ∀ p : ParsedPrice, priceParse t = some p →
        p.lo ∈ (scanMatches t).map matchValue
        ∧ p.hi ∈ (scanMatches t).map matchValue
        ∧ (∀ v ∈ (scanMatches t).map matchValue, p.lo ≤ v ∧ v ≤ p.hi)
        ∧ p.mid = (p.lo + p.hi) / 2
        ∧ ∀ v : ℚ, (scanMatches t).map matchValue = [v]
            → p.lo = v ∧ p.hi = v ∧ p.mid = v := by
  refine ⟨priceParse_none_iff t, ?_⟩
  intro p h
  cases hm : (scanMatches t).map matchValue with
  | nil =>
    simp only [priceParse, hm] at h
    exact Option.noConfusion h
  | cons v vs =>
    simp only [priceParse, hm, Option.some.injEq] at h
    obtain rfl := h.symm
    refine ⟨?_, ?_, ?_, rfl, ?_⟩
    · exact foldl_min_mem vs v
    · exact foldl_max_mem vs v
    · intro w hw
      exact ⟨foldl_min_le vs v w hw, le_foldl_max vs v w hw⟩
    · intro w hw
      injection hw with h1 h2
      subst h1
      subst h2
      refine ⟨rfl, rfl, ?_⟩
      show (v + v) / 2 = v
      ring

/-- C3 (witness): the theorem applied to `"$120.00 - $150.00"`, whose parse
is `lo = 120`, `hi = 150`, `mid = 135`. -/
theorem c3_priceParse_wit :
    (120 : ℚ) ∈ (scanMatches (enc "$120.00 - $150.00")).map matchValue
    ∧ (135 : ℚ) = ((120 : ℚ) + 150) / 2 := by
  have hscan : scanMatches (enc "$120.00 - $150.00")
      = [enc "120.00", enc "150.00"] := by decide
  have hc1 : matchCents (enc "120.00") = 12000 := by decide
  have hc2 : matchCents (enc "150.00") = 15000 := by decide
  have hparse : priceParse (enc "$120.00 - $150.00")
      = some ⟨120, 150, 135⟩ := by
    simp only [priceParse, hscan, List.map_cons, List.map_nil, List.foldl_cons,
      List.foldl_nil, matchValue, hc1, hc2, Option.some.injEq,
      ParsedPrice.mk.injEq]
    norm_num [min_def, max_def]
  have h := (c3_priceParse (enc "$120.00 - $150.00")).2 ⟨120, 150, 135⟩ hparse
  exact ⟨h.1, h.2.2.2.1⟩

/-! ### C6 — deduplication by normalized name -/

/-- `map.get` misses exactly when the key is absent. -/
theorem mapGet_none_iff (m : KV) (k : JStr) :
    mapGet m k = none ↔ k ∉ m.map Prod.fst := by
  induction m with
  | nil => simp [mapGet]
  | cons p rest ih =>
    rcases p with ⟨k1, v1⟩
    by_cases hk : k1 = k
    · subst hk
      simp [mapGet]
    · simp only [mapGet, if_neg hk, List.map_cons, List.mem_cons, ih]
      constructor
      · intro h1 h2
        rcases h2 with h2 | h2
        · exact hk h2.symm
        · exact h1 h2
      · intro h1 h2
        exact h1 (Or.inr h2)

/-- A `map.get` hit is a stored pair. -/
theorem mapGet_some_mem (m : KV) (k : JStr) (v : Listing)
    (h : mapGet m k = some v) : (k, v) ∈ m := by
  induction m with
  | nil => exact Option.noConfusion h
  | cons q rest ih =>
    rcases q with ⟨k1, v1⟩
    by_cases hk : k1 = k
    · subst hk
      have h2 : (if k1 = k1 then some v1 else mapGet rest k1) = some v := h
      rw [if_pos rfl] at h2
      rw [← Option.some.inj h2]
      exact List.mem_cons_self _ _
    · simp only [mapGet, if_neg hk] at h
      exact List.mem_cons_of_mem _ (ih h)

/-- With distinct keys, a stored pair is what `map.get` returns. -/
theorem mapGet_of_mem (m : KV) (k : JStr) (v : Listing)
    (hnd : (m.map Prod.fst).Nodup) (hm : (k, v) ∈ m) :
    mapGet m k = some v := by
  induction m with
  | nil => exact absurd hm (List.not_mem_nil _)
  | cons q rest ih =>
    rcases q with ⟨k1, v1⟩
    simp only [List.map_cons, List.nodup_cons] at hnd
    rcases List.mem_cons.mp hm with h1 | h1
    · cases h1
      simp [mapGet]
    · have hk : k1 ≠ k := by
        intro he
        exact hnd.1 (he ▸ List.mem_map_of_mem Prod.fst h1)
      simp only [mapGet, if_neg hk]
      exact ih hnd.2 h1

/-- `map.set` keeps the key list when overwriting and appends a fresh key. -/
theorem keys_mapSet (m : KV) (k : JStr) (v : Listing) :
    (mapSet m k v).map Prod.fst
      = if k ∈ m.map Prod.fst then m.map Prod.fst
        else m.map Prod.fst ++ [k] := by
  induction m with
  | nil => simp [mapSet]
  | cons p rest ih =>
    rcases p with ⟨k1, v1⟩
    by_cases hk : k1 = k
    · subst hk
      simp [mapSet]
    · simp only [mapSet, if_neg hk, List.map_cons, ih]
      by_cases hm : k ∈ rest.map Prod.fst
      · rw [if_pos hm, if_pos (by exact List.mem_cons_of_mem _ hm)]
      · rw [if_neg hm, if_neg ?_, List.cons_append]
        intro h2
        rcases List.mem_cons.mp h2 with h3 | h3
        · exact hk h3.symm
        · exact hm h3

/-- With distinct keys, a member of `map.set m k v` is an old pair with a
key other than `k`, or the new pair. -/
theorem mem_mapSet (m : KV) (k : JStr) (v : Listing) (p : JStr × Listing)
    (hnd : (m.map Prod.fst).Nodup) (hp : p ∈ mapSet m k v) :
    (p.1 ≠ k ∧ p ∈ m) ∨ p = (k, v) := by
  induction m with
  | nil =>
    simp only [mapSet, List.mem_singleton] at hp
    exact Or.inr hp
  | cons q rest ih =>
    rcases q with ⟨k1, v1⟩
    simp only [List.map_cons, List.nodup_cons] at hnd
    by_cases hk : k1 = k
    · subst hk
      simp only [mapSet, if_pos rfl] at hp
      rcases List.mem_cons.mp hp with h1 | h1
      · exact Or.inr h1
      · left
        refine ⟨?_, List.mem_cons_of_mem _ h1⟩
        intro he
        exact hnd.1 (he ▸ List.mem_map_of_mem Prod.fst h1)
    · simp only [mapSet, if_neg hk] at hp
      rcases List.mem_cons.mp hp with h1 | h1
      · subst h1
        exact Or.inl ⟨hk, List.mem_cons_self _ _⟩
      · rcases ih hnd.2 h1 with h2 | h2
        · exact Or.inl ⟨h2.1, List.mem_cons_of_mem _ h2.2⟩
        · exact Or.inr h2

/-- `map.set` preserves key distinctness. -/
theorem nodup_keys_mapSet (m : KV) (k : JStr) (v : Listing)
    (hnd : (m.map Prod.fst).Nodup) :
    ((mapSet m k v).map Prod.fst).Nodup := by
  rw [keys_mapSet]
  by_cases hk : k ∈ m.map Prod.fst
  · rw [if_pos hk]
    exact hnd
  · rw [if_neg hk]
    simp only [List.nodup_append, List.nodup_cons, List.not_mem_nil,
      not_false_iff, List.nodup_nil, true_and, and_true]
    refine ⟨hnd, ?_⟩
    intro x hx
    simp only [List.mem_singleton]
    intro he
    exact hk (he ▸ hx)

/-- One dedup iteration preserves the fold invariant, extending the
processed prefix by the current item. -/
theorem dedupInv_step (processed : List Listing) (m : KV) (it : Listing)
    (h : dedupInv processed m) :
    dedupInv (processed ++ [it]) (dedupStep m it) := by
  obtain ⟨hnd, hgood, hcover⟩ := h
  unfold dedupStep
  cases hg : mapGet m (lkey it) with
  | none =>
    have hkn : lkey it ∉ m.map Prod.fst := (mapGet_none_iff m _).mp hg
    refine ⟨nodup_keys_mapSet m _ it hnd, ?_, ?_⟩
    · intro p hp
      rcases mem_mapSet m _ it p hnd hp with ⟨hne, hpm⟩ | h1
      · obtain ⟨ha, hb⟩ := hgood p hpm
        refine ⟨ha, ?_⟩
        intro jt hjt hk
        rcases List.mem_append.mp hjt with hj | hj
        · exact hb jt hj hk
        · rw [List.mem_singleton] at hj
          subst hj
          exact absurd hk.symm hne
      · subst h1
        refine ⟨rfl, ?_⟩
        intro jt hjt hk
        rcases List.mem_append.mp hjt with hj | hj
        · refine absurd ?_ hkn
          have h4 := hcover jt hj
          rw [hk] at h4
          exact h4
        · rw [List.mem_singleton] at hj
          subst hj
          exact le_refl _
    · intro jt hjt
      rw [keys_mapSet, if_neg hkn]
      rcases List.mem_append.mp hjt with hj | hj
      · exact List.mem_append_left _ (hcover jt hj)
      · rw [List.mem_singleton] at hj
        subst hj
        exact List.mem_append_right _ (List.mem_singleton.mpr rfl)
  | some prev =>
    have hprevmem : (lkey it, prev) ∈ m := mapGet_some_mem m _ prev hg
    obtain ⟨-, hpb⟩ := hgood _ hprevmem
    have hkm : lkey it ∈ m.map Prod.fst := by
      by_contra hkn
      rw [(mapGet_none_iff m _).mpr hkn] at hg
      exact Option.noConfusion hg
    change dedupInv (processed ++ [it])
      (if prev.price.length < it.price.length then mapSet m (lkey it) it else m)
    by_cases hlen : prev.price.length < it.price.length
    · rw [if_pos hlen]
      refine ⟨nodup_keys_mapSet m _ it hnd, ?_, ?_⟩
      · intro p hp
        rcases mem_mapSet m _ it p hnd hp with ⟨hne, hpm⟩ | h1
        · obtain ⟨ha, hb⟩ := hgood p hpm
          refine ⟨ha, ?_⟩
          intro jt hjt hk
          rcases List.mem_append.mp hjt with hj | hj
          · exact hb jt hj hk
          · rw [List.mem_singleton] at hj
            subst hj
            exact absurd hk.symm hne
        · subst h1
          refine ⟨rfl, ?_⟩
          intro jt hjt hk
          rcases List.mem_append.mp hjt with hj | hj
          · exact le_trans (hpb jt hj hk) (le_of_lt hlen)
          · rw [List.mem_singleton] at hj
            subst hj
            exact le_refl _
      · intro jt hjt
        rw [keys_mapSet, if_pos hkm]
        rcases List.mem_append.mp hjt with hj | hj
        · exact hcover jt hj
        · rw [List.mem_singleton] at hj
          subst hj
          exact hkm
    · rw [if_neg hlen]
      refine ⟨hnd, ?_, ?_⟩
      · intro p hp
        obtain ⟨ha, hb⟩ := hgood p hp
        refine ⟨ha, ?_⟩
        intro jt hjt hk
        rcases List.mem_append.mp hjt with hj | hj
        · exact hb jt hj hk
        · rw [List.mem_singleton] at hj
          subst hj
          have h1 : mapGet m p.1 = some p.2 :=
            mapGet_of_mem m p.1 p.2 hnd (by simpa using hp)
          rw [← hk] at h1
          rw [hg] at h1
          rw [← Option.some.inj h1]
          exact Nat.le_of_not_lt hlen
      · intro jt hjt
        rcases List.mem_append.mp hjt with hj | hj
        · exact hcover jt hj
        · rw [List.mem_singleton] at hj
          subst hj
          exact hkm

/-- The dedup fold preserves the invariant over any item suffix. -/
theorem dedupInv_fold :
    ∀ (items processed : List Listing) (m : KV),
      dedupInv processed m →
      dedupInv (processed ++ items) (items.foldl dedupStep m) := by
  intro items
  induction items with
  | nil =>
    intro processed m h
    simpa using h
  | cons it rest ih =>
    intro processed m h
    rw [List.foldl_cons]
    have h2 := ih (processed ++ [it]) (dedupStep m it) (dedupInv_step _ _ _ h)
    simpa [List.append_assoc] using h2

/-- One dedup iteration keeps the key order, appending fresh keys. -/
theorem keys_dedupStep (m : KV) (it : Listing) :
    (dedupStep m it).map Prod.fst
      = if lkey it ∈ m.map Prod.fst then m.map Prod.fst
        else m.map Prod.fst ++ [lkey it] := by
  unfold dedupStep
  cases hg : mapGet m (lkey it) with
  | none =>
    have hkn := (mapGet_none_iff m _).mp hg
    change (mapSet m (lkey it) it).map Prod.fst = _
    rw [keys_mapSet, if_neg hkn]
  | some prev =>
    have hkm : lkey it ∈ m.map Prod.fst := by
      by_contra hkn
      rw [(mapGet_none_iff m _).mpr hkn] at hg
      exact Option.noConfusion hg
    change (if prev.price.length < it.price.length
        then mapSet m (lkey it) it else m).map Prod.fst = _
    by_cases hlen : prev.price.length < it.price.length
    · rw [if_pos hlen, keys_mapSet, if_pos hkm]
    · rw [if_neg hlen, if_pos hkm]

/-- `firstSeen` depends on the seen set only through membership. -/
theorem firstSeen_congr :
    ∀ (ks s1 s2 : List JStr), (∀ x, x ∈ s1 ↔ x ∈ s2) →
      firstSeen s1 ks = firstSeen s2 ks := by
  intro ks
  induction ks with
  | nil => intro s1 s2 h; rfl
  | cons k ks2 ih =>
    intro s1 s2 h
    by_cases hk : k ∈ s1
    · simp only [firstSeen]
      rw [if_pos hk, if_pos ((h k).mp hk)]
      exact ih s1 s2 h
    · simp only [firstSeen]
      rw [if_neg hk, if_neg (fun hx => hk ((h k).mpr hx))]
      refine congrArg (k :: ·) (ih (k :: s1) (k :: s2) ?_)
      intro x
      simp [h x]

/-- The key order of the dedup fold is the first-seen order of the item
keys, after the keys already present. -/
theorem keys_foldl_dedup :
    ∀ (items : List Listing) (m : KV),
      (items.foldl dedupStep m).map Prod.fst
        = m.map Prod.fst
          ++ firstSeen (m.map Prod.fst) (items.map lkey) := by
  intro items
  induction items with
  | nil => intro m; simp [firstSeen]
  | cons it rest ih =>
    intro m
    rw [List.foldl_cons, List.map_cons]
    rw [ih (dedupStep m it), keys_dedupStep]
    by_cases hk : lkey it ∈ m.map Prod.fst
    · rw [if_pos hk]
      simp only [firstSeen]
      rw [if_pos hk]
    · rw [if_neg hk]
      simp only [firstSeen]
      rw [if_neg hk]
      rw [firstSeen_congr (rest.map lkey) (m.map Prod.fst ++ [lkey it])
        (lkey it :: m.map Prod.fst) (by intro x; simp [or_comm])]
      simp

/-- C6: deduplication keeps, per normalized-name key, a listing whose price
text is at least as long as that of every raw listing with the same key
(strictly longer price texts replace, so lengths 6 vs 10 keep the 10), and
the catalog's order is the first-seen order of the keys in the scrape. -/
theorem c6_dedup (items : List Listing) :
    (dedupByName items).map (fun it => normalize it.name)
      = firstSeen [] (items.map (fun it => normalize it.name))
    ∧ ∀ it ∈ dedupByName items, ∀ jt ∈ items,
        normalize jt.name = normalize it.name
          → jt.price.length ≤ it.price.length := by
  have hinv : dedupInv items (items.foldl dedupStep []) := by
    have h := dedupInv_fold items [] [] ⟨by simp, by simp, by simp⟩
    simpa using h
  obtain ⟨hnd, hgood, -⟩ := hinv
  constructor
  · have hk := keys_foldl_dedup items []
    simp only [List.map_nil, List.nil_append] at hk
    have h2 : (dedupByName items).map (fun it => normalize it.name)
        = (items.foldl dedupStep []).map Prod.fst := by
      unfold dedupByName
      rw [List.map_map]
      refine List.map_congr_left ?_
      intro p hp
      exact (hgood p hp).1
    rw [h2, hk]
    rfl
  · intro it hit jt hjt hk
    unfold dedupByName at hit
    rcases List.mem_map.mp hit with ⟨p, hpm, hpe⟩
    obtain ⟨h1, h2⟩ := hgood p hpm
    rw [← hpe]
    rw [← hpe] at hk
    exact h2 jt hjt (hk.trans h1)

/-- C6 (witness): two raw listings with the same normalized name and price
texts of lengths 6 and 10 — the kept entry dominates, so the length-6 price
is bounded by the kept length-10 one. -/
theorem c6_dedup_wit :
    (⟨enc "Paddle X", enc "$12.00"⟩ : Listing).price.length
      ≤ (⟨enc "paddle  x", enc "was $15.00"⟩ : Listing).price.length :=
  (c6_dedup [⟨enc "Paddle X", enc "$12.00"⟩,
      ⟨enc "paddle  x", enc "was $15.00"⟩]).2
    ⟨enc "paddle  x", enc "was $15.00"⟩ (by decide)
    ⟨enc "Paddle X", enc "$12.00"⟩ (by decide) (by decide)

/-! ### C9 — idempotence of `normalize` -/

/-- Lowercasing a code unit twice is the same as once. -/
theorem toLower_idem (n : Nat) :
    toLowerCode (toLowerCode n) = toLowerCode n := by
  by_cases h : 65 ≤ n ∧ n ≤ 90
  · have h1 : toLowerCode n = n + 32 := by
      unfold toLowerCode
      rw [if_pos (by simp [h.1, h.2])]
    have h2 : toLowerCode (n + 32) = n + 32 := by
      unfold toLowerCode
      rw [if_neg (by simp; omega)]
    rw [h1, h2]
  · have h1 : toLowerCode n = n := by
      unfold toLowerCode
      rw [if_neg (by simpa using h)]
    rw [h1, h1]

/-- Whitespace code units are untouched by lowercasing. -/
theorem isWs_not_upper (n : Nat) (h : isWs n = true) : toLowerCode n = n := by
  unfold toLowerCode
  rw [if_neg ?_]
  intro hb
  simp only [Bool.and_eq_true, decide_eq_true_eq] at hb
  simp only [isWs, Bool.or_eq_true, Bool.and_eq_true, decide_eq_true_eq] at h
  omega

/-- The tail of a list with no adjacent whitespace has none either. -/
theorem noAdjWs_tail (a : Nat) (l : JStr) (h : noAdjWs (a :: l) = true) :
    noAdjWs l = true := by
  cases l with
  | nil => rfl
  | cons b rest =>
    simp only [noAdjWs, Bool.and_eq_true] at h
    exact h.2

/-- A cons keeps `noAdjWs` when the head is not whitespace or the tail does
not start with whitespace. -/
theorem noAdjWs_cons (h0 : Nat) (X : JStr) (hX : noAdjWs X = true)
    (hh : isWs h0 = false ∨ headOk X = true) : noAdjWs (h0 :: X) = true := by
  cases X with
  | nil => rfl
  | cons x xs =>
    simp only [noAdjWs, Bool.and_eq_true]
    refine ⟨?_, hX⟩
    rcases hh with hh | hh
    · simp [hh]
    · simp only [headOk] at hh
      simp only [Bool.not_eq_true'] at hh
      simp [hh]

/-- Members of the collapsed list are non-whitespace members of the original
or the plain space. -/
theorem mem_collapseWs :
    ∀ (l : JStr) (c : Nat), c ∈ collapseWs l →
      (c ∈ l ∧ isWs c = false) ∨ c = 32 := by
  intro l
  induction l with
  | nil =>
    intro c hc
    simp [collapseWs] at hc
  | cons a rest ih =>
    intro c hc
    cases rest with
    | nil =>
      by_cases ha : isWs a = true
      · simp [collapseWs, ha] at hc
        exact Or.inr hc
      · have ha2 : isWs a = false := by
          rw [← Bool.not_eq_true]
          exact ha
        simp [collapseWs, ha2] at hc
        exact Or.inl ⟨by simp [hc], hc ▸ ha2⟩
    | cons b rest2 =>
      have hstep : collapseWs (a :: b :: rest2)
          = if isWs a && isWs b then collapseWs (b :: rest2)
            else (if isWs a then 32 else a) :: collapseWs (b :: rest2) := rfl
      rw [hstep] at hc
      by_cases hab : (isWs a && isWs b) = true
      · rw [if_pos hab] at hc
        rcases ih c hc with ⟨h1, h2⟩ | h1
        · exact Or.inl ⟨List.mem_cons_of_mem _ h1, h2⟩
        · exact Or.inr h1
      · rw [if_neg hab] at hc
        rcases List.mem_cons.mp hc with h1 | h1
        · by_cases ha : isWs a = true
          · rw [if_pos ha] at h1
            exact Or.inr h1
          · have ha2 : isWs a = false := by
              rw [← Bool.not_eq_true]
              exact ha
            rw [if_neg ha] at h1
            exact Or.inl ⟨by simp [h1], h1 ▸ ha2⟩
        · rcases ih c h1 with ⟨h2, h3⟩ | h2
          · exact Or.inl ⟨List.mem_cons_of_mem _ h2, h3⟩
          · exact Or.inr h2

/-- When its head is not whitespace, a collapsed nonempty list starts with
that head (in particular, not with whitespace). -/
theorem collapseWs_head_not_ws (b : Nat) (rest2 : JStr)
    (hb : isWs b = false) : headOk (collapseWs (b :: rest2)) = true := by
  cases rest2 with
  | nil =>
    show headOk (if isWs b then [32] else [b]) = true
    rw [if_neg (by simp [hb])]
    simp [headOk, hb]
  | cons c2 r3 =>
    show headOk
        (if isWs b && isWs c2 then collapseWs (c2 :: r3)
         else (if isWs b then 32 else b) :: collapseWs (c2 :: r3)) = true
    rw [if_neg (by simp [hb]), if_neg (by simp [hb])]
    simp [headOk, hb]

/-- Collapsing leaves no two adjacent whitespace code units. -/
theorem collapseWs_noAdj : ∀ l : JStr, noAdjWs (collapseWs l) = true := by
  intro l
  induction l with
  | nil => rfl
  | cons a rest ih =>
    cases rest with
    | nil =>
      by_cases ha : isWs a = true <;>
        simp [collapseWs, ha, noAdjWs]
    | cons b rest2 =>
      have hstep : collapseWs (a :: b :: rest2)
          = if isWs a && isWs b then collapseWs (b :: rest2)
            else (if isWs a then 32 else a) :: collapseWs (b :: rest2) := rfl
      rw [hstep]
      by_cases hab : (isWs a && isWs b) = true
      · rw [if_pos hab]
        exact ih
      · rw [if_neg hab]
        have hab2 : (isWs a && isWs b) = false := by
          rw [← Bool.not_eq_true]
          exact hab
        by_cases ha : isWs a = true
        · have hb : isWs b = false := by
            rw [ha] at hab2
            simpa using hab2
          refine noAdjWs_cons _ _ ih (Or.inr ?_)
          exact collapseWs_head_not_ws b rest2 hb
        · have ha2 : isWs a = false := by
            rw [← Bool.not_eq_true]
            exact ha
          refine noAdjWs_cons _ _ ih (Or.inl ?_)
          rw [if_neg ha]
          exact ha2

/-- Collapsing leaves only plain spaces as whitespace. -/
theorem collapseWs_only32 (l : JStr) : wsOnly32 (collapseWs l) = true := by
  rw [wsOnly32, List.all_eq_true]
  intro c hc
  rcases mem_collapseWs l c hc with ⟨-, h⟩ | h
  · simp [h]
  · simp [h]

/-- `dropWhile` keeps `noAdjWs`. -/
theorem noAdjWs_dropWhile (l : JStr) (h : noAdjWs l = true) :
    noAdjWs (l.dropWhile isWs) = true := by
  induction l with
  | nil => simpa using h
  | cons a rest ih =>
    rw [List.dropWhile_cons]
    by_cases ha : isWs a = true
    · rw [if_pos ha]
      exact ih (noAdjWs_tail a rest h)
    · rw [if_neg ha]
      exact h

/-- A nonempty `trimRight` keeps the original head. -/
theorem trimRight_head (a : Nat) (l : JStr) :
    trimRight (a :: l) = [] ∨ ∃ r, trimRight (a :: l) = a :: r := by
  have hstep : trimRight (a :: l)
      = if (trimRight l).isEmpty then (if isWs a then [] else [a])
        else a :: trimRight l := rfl
  rw [hstep]
  by_cases hr : (trimRight l).isEmpty = true
  · rw [if_pos hr]
    by_cases ha : isWs a = true
    · rw [if_pos ha]
      exact Or.inl rfl
    · rw [if_neg ha]
      exact Or.inr ⟨[], rfl⟩
  · rw [if_neg hr]
    exact Or.inr ⟨trimRight l, rfl⟩

/-- `trimRight` keeps `noAdjWs`. -/
theorem noAdjWs_trimRight : ∀ l : JStr, noAdjWs l = true →
    noAdjWs (trimRight l) = true := by
  intro l
  induction l with
  | nil => intro h; exact h
  | cons a rest ih =>
    intro h
    have hr := ih (noAdjWs_tail a rest h)
    have hstep : trimRight (a :: rest)
        = if (trimRight rest).isEmpty then (if isWs a then [] else [a])
          else a :: trimRight rest := rfl
    rw [hstep]
    by_cases he : (trimRight rest).isEmpty = true
    · rw [if_pos he]
      by_cases ha : isWs a = true
      · rw [if_pos ha]; rfl
      · rw [if_neg ha]; rfl
    · rw [if_neg he]
      cases rest with
      | nil => simp [trimRight] at he
      | cons b rest2 =>
        rcases trimRight_head b rest2 with h0 | ⟨r, h0⟩
        · rw [h0] at he
          simp at he
        · rw [h0]
          simp only [noAdjWs, Bool.and_eq_true]
          constructor
          · simp only [noAdjWs, Bool.and_eq_true] at h
            exact h.1
          · rw [← h0]
            exact hr

/-- Members of `trimRight` come from the original list. -/
theorem mem_trimRight : ∀ (l : JStr) (c : Nat), c ∈ trimRight l → c ∈ l := by
  intro l
  induction l with
  | nil =>
    intro c hc
    exact absurd hc (List.not_mem_nil c)
  | cons a rest ih =>
    intro c hc
    have hstep : trimRight (a :: rest)
        = if (trimRight rest).isEmpty then (if isWs a then [] else [a])
          else a :: trimRight rest := rfl
    rw [hstep] at hc
    by_cases he : (trimRight rest).isEmpty = true
    · rw [if_pos he] at hc
      by_cases ha : isWs a = true
      · rw [if_pos ha] at hc
        exact absurd hc (List.not_mem_nil c)
      · rw [if_neg ha] at hc
        rw [List.mem_singleton] at hc
        simp [hc]
    · rw [if_neg he] at hc
      rcases List.mem_cons.mp hc with h1 | h1
      · simp [h1]
      · exact List.mem_cons_of_mem _ (ih c h1)

/-- Members of `trimLeft` come from the original list. -/
theorem mem_trimLeft (l : JStr) (c : Nat) (hc : c ∈ trimLeft l) : c ∈ l :=
  (List.dropWhile_sublist isWs).subset hc

/-- `trimLeft` produces no leading whitespace. -/
theorem headOk_trimLeft (l : JStr) : headOk (trimLeft l) = true := by
  unfold trimLeft
  induction l with
  | nil => rfl
  | cons a rest ih =>
    rw [List.dropWhile_cons]
    by_cases ha : isWs a = true
    · rw [if_pos ha]
      exact ih
    · rw [if_neg ha]
      have ha2 : isWs a = false := by
        rw [← Bool.not_eq_true]
        exact ha
      simp [headOk, ha2]

/-- `trimRight` keeps the absence of leading whitespace. -/
theorem headOk_trimRight (l : JStr) (h : headOk l = true) :
    headOk (trimRight l) = true := by
  cases l with
  | nil => rfl
  | cons a rest =>
    rcases trimRight_head a rest with h0 | ⟨r, h0⟩
    · rw [h0]; rfl
    · rw [h0]
      simpa only [headOk] using h

/-- With no leading whitespace, `trimLeft` is the identity. -/
theorem trimLeft_id (l : JStr) (h : headOk l = true) : trimLeft l = l := by
  cases l with
  | nil => rfl
  | cons a rest =>
    unfold trimLeft
    rw [List.dropWhile_cons, if_neg ?_]
    intro hw
    simp only [headOk, hw] at h
    exact Bool.noConfusion h

/-- `trimRight` is idempotent. -/
theorem trimRight_idem : ∀ l : JStr, trimRight (trimRight l) = trimRight l := by
  intro l
  induction l with
  | nil => rfl
  | cons a rest ih =>
    have hstep : trimRight (a :: rest)
        = if (trimRight rest).isEmpty then (if isWs a then [] else [a])
          else a :: trimRight rest := rfl
    by_cases he : (trimRight rest).isEmpty = true
    · rw [hstep, if_pos he]
      by_cases ha : isWs a = true
      · rw [if_pos ha]; rfl
      · rw [if_neg ha]
        have h1 : trimRight [a] = if isWs a then [] else [a] := rfl
        rw [h1, if_neg ha]
    · rw [hstep, if_neg he]
      have hstep2 : trimRight (a :: trimRight rest)
          = if (trimRight (trimRight rest)).isEmpty then
              (if isWs a then [] else [a])
            else a :: trimRight (trimRight rest) := rfl
      rw [hstep2, ih, if_neg he]

/-- Mapping a function that fixes every member is the identity. -/
theorem map_id_of_fixed :
    ∀ (l : JStr) (f : Nat → Nat), (∀ c ∈ l, f c = c) → l.map f = l := by
  intro l f
  induction l with
  | nil => intro h; rfl
  | cons a rest ih =>
    intro h
    rw [List.map_cons, h a (List.mem_cons_self _ _),
      ih (fun c hc => h c (List.mem_cons_of_mem _ hc))]

/-- On a list with no adjacent whitespace and only plain spaces, collapsing
is the identity. -/
theorem collapseWs_id :
    ∀ l : JStr, noAdjWs l = true → wsOnly32 l = true → collapseWs l = l := by
  intro l
  induction l with
  | nil => intro h1 h2; rfl
  | cons a rest ih =>
    intro h1 h2
    have h2a : (!isWs a || a == 32) = true := by
      rw [wsOnly32, List.all_eq_true] at h2
      exact h2 a (List.mem_cons_self _ _)
    have h2rest : wsOnly32 rest = true := by
      rw [wsOnly32, List.all_eq_true] at h2
      rw [wsOnly32, List.all_eq_true]
      exact fun c hc => h2 c (List.mem_cons_of_mem _ hc)
    cases rest with
    | nil =>
      by_cases ha : isWs a = true
      · have ha32 : a = 32 := by
          rw [ha] at h2a
          simpa using h2a
        simp [collapseWs, ha, ha32]
      · have ha2 : isWs a = false := by
          rw [← Bool.not_eq_true]
          exact ha
        simp [collapseWs, ha2]
    | cons b rest2 =>
      simp only [noAdjWs, Bool.and_eq_true] at h1
      have hab : (isWs a && isWs b) = false := by
        have := h1.1
        rwa [Bool.not_eq_true'] at this
      have hstep : collapseWs (a :: b :: rest2)
          = if isWs a && isWs b then collapseWs (b :: rest2)
            else (if isWs a then 32 else a) :: collapseWs (b :: rest2) := rfl
      rw [hstep, if_neg (by simp [hab]), ih h1.2 h2rest]
      by_cases ha : isWs a = true
      · have ha32 : a = 32 := by
          rw [ha] at h2a
          simpa using h2a
        rw [if_pos ha, ha32]
      · rw [if_neg ha]

/-- C9: `normalize` is idempotent —
`normalize (normalize x) = normalize x` for every string. -/
theorem c9_normalize_idem (x : JStr) :
    normalize (normalize x) = normalize x := by
  unfold normalize
  set y := x.map toLowerCode with hy
  set z := collapseWs y with hz
  set w := trimRight (trimLeft z) with hw
  have hmemz : ∀ c : Nat, c ∈ w → c ∈ z := by
    intro c hc
    exact mem_trimLeft z c (mem_trimRight (trimLeft z) c hc)
  have hmap : w.map toLowerCode = w := by
    refine map_id_of_fixed w toLowerCode ?_
    intro c hc
    rcases mem_collapseWs y c (hmemz c hc) with ⟨hcy, -⟩ | h32
    · rcases List.mem_map.mp hcy with ⟨d, -, rfl⟩
      exact toLower_idem d
    · rw [h32]
      rfl
  have hnadj : noAdjWs w = true :=
    noAdjWs_trimRight _ (noAdjWs_dropWhile z (collapseWs_noAdj y))
  have h32 : wsOnly32 w = true := by
    rw [wsOnly32, List.all_eq_true]
    intro c hc
    have h3 := collapseWs_only32 y
    rw [wsOnly32, List.all_eq_true] at h3
    exact h3 c (hmemz c hc)
  have hcol : collapseWs w = w := collapseWs_id w hnadj h32
  have hhead : headOk w = true := headOk_trimRight _ (headOk_trimLeft z)
  have htl : trimLeft w = w := trimLeft_id w hhead
  have htr : trimRight w = w := by
    rw [hw]
    exact trimRight_idem (trimLeft z)
  rw [hmap, hcol, htl, htr]

/-! ### C10 — whitespace-only model field -/

/-- A nonempty all-whitespace list collapses to a single space. -/
theorem collapse_all_ws :
    ∀ l : JStr, l ≠ [] → (∀ c ∈ l, isWs c = true) → collapseWs l = [32] := by
  intro l
  induction l with
  | nil =>
    intro h
    exact absurd rfl h
  | cons a rest ih =>
    intro _ hws
    cases rest with
    | nil => simp [collapseWs, hws a (List.mem_cons_self _ _)]
    | cons b rest2 =>
      have hstep : collapseWs (a :: b :: rest2)
          = if isWs a && isWs b then collapseWs (b :: rest2)
            else (if isWs a then 32 else a) :: collapseWs (b :: rest2) := rfl
      rw [hstep, if_pos ?_]
      · exact ih (by simp) (fun c hc => hws c (List.mem_cons_of_mem _ hc))
      · rw [hws a (List.mem_cons_self _ _),
          hws b (List.mem_cons_of_mem _ (List.mem_cons_self _ _))]
        rfl

/-- A nonempty all-whitespace string normalizes to the empty string. -/
theorem normalize_all_ws (l : JStr) (hne : l ≠ [])
    (hws : ∀ c ∈ l, isWs c = true) : normalize l = [] := by
  have hmap : l.map toLowerCode = l :=
    map_id_of_fixed l _ (fun c hc => isWs_not_upper c (hws c hc))
  have hcol : collapseWs l = [32] := collapse_all_ws l hne hws
  unfold normalize
  rw [hmap, hcol]
  decide

/-- C10: a request whose `model` is a non-empty whitespace-only string (with
`condition` present) passes validation, but the matcher normalizes the query
to the empty string and returns no match, so — whenever the catalog is
obtained — the response is the success outcome with `found = false` and
`offer = null`, not a validation failure. -/
theorem c10_ws_only_model (m0 c0 : JStr) (ds : List Listing)
    (cache : CacheState) (now : Int) (f : FetchOutcome)
    (hm : m0 ≠ []) (hws : ∀ c ∈ m0, isWs c = true) (hc : c0 ≠ [])
    (hs : (ServerVariant.scrapeUsedPaddles cache now f).result = .ok ds) :
    offerHandler (some m0) (some c0) cache now f = .notFoundOk := by
  have hnorm : normalize m0 = [] := normalize_all_ws m0 hm hws
  have hbm : ServerVariant.bestMatch m0 ds = none := by
    simp [ServerVariant.bestMatch, hnorm]
  have hm2 : m0.isEmpty = false := by
    cases m0 with
    | nil => exact absurd rfl hm
    | cons a l => rfl
  have hc2 : c0.isEmpty = false := by
    cases c0 with
    | nil => exact absurd rfl hc
    | cons a l => rfl
  simp [offerHandler, fieldTruthy, hm2, hc2, hs, hbm]

/-- C10 (witness): a single-space model with condition `"good"` and a cache
hit on a non-empty catalog yields the found-nothing success outcome. -/
theorem c10_ws_only_model_wit :
    offerHandler (some (enc " ")) (some (enc "good"))
        ⟨some [⟨enc "Paddle", enc "$10.00"⟩], 0, 300000⟩ 0 .failure
      = .notFoundOk :=
  c10_ws_only_model (enc " ") (enc "good") [⟨enc "Paddle", enc "$10.00"⟩]
    ⟨some [⟨enc "Paddle", enc "$10.00"⟩], 0, 300000⟩ 0 .failure
    (by decide) (by decide) (by decide) (by decide)

end POA
